import Mathlib

/-!
Verification development for the Mos-GSM duplicate-checker service
(src/main.py).  Text is modelled as lists of characters; the Python string
operations used by the service are embedded as executable functions on
those lists.
-/

/-- Text is a list of characters. -/

abbrev Str : Type := List Char

/-- The whitespace characters recognised by Python str.split, str.strip and
the regex whitespace class, restricted to the ASCII whitespace that occurs
in this domain. -/
def isPySpace (c : Char) : Bool :=
  c = ' ' || c = '\t' || c = '\n' || c = '\r' || c = '\x0b' || c = '\x0c'

/-- One character of Python str.lower, covering the alphabets this service
works with: ASCII Latin letters (65-90) and Russian Cyrillic letters
(1040-1071 plus 1025 for the letter Yo).  Other characters are unchanged. -/
def pyLower (c : Char) : Char :=
  let n := c.toNat
  if 65 ≤ n ∧ n ≤ 90 then Char.ofNat (n + 32)
  else if 1040 ≤ n ∧ n ≤ 1071 then Char.ofNat (n + 32)
  else if n = 1025 then Char.ofNat 1105
  else c

/-- One character of Python str.upper for the same alphabets. -/
def pyUpper (c : Char) : Char :=
  let n := c.toNat
  if 97 ≤ n ∧ n ≤ 122 then Char.ofNat (n - 32)
  else if 1072 ≤ n ∧ n ≤ 1103 then Char.ofNat (n - 32)
  else if n = 1105 then Char.ofNat 1025
  else c

/-- Python str.strip: drop whitespace from both ends. -/
def pyStrip (s : Str) : Str :=
  ((s.dropWhile isPySpace).reverse.dropWhile isPySpace).reverse

/-- Helper for pyWords: accumulates the current word (reversed) while
scanning. -/
def pyWordsAux : Str → Str → List Str
  | [], acc => if acc.isEmpty then [] else [acc.reverse]
  | c :: t, acc =>
    if isPySpace c then
      if acc.isEmpty then pyWordsAux t [] else acc.reverse :: pyWordsAux t []
    else pyWordsAux t (c :: acc)

/-- Python str.split with no argument: splits on runs of whitespace and
ignores leading and trailing whitespace. -/
def pyWords (s : Str) : List Str := pyWordsAux s []

/-- Python sep.join(parts). -/
def pyJoin (sep : Str) : List Str → Str
  | [] => []
  | [w] => w
  | w :: ws => w ++ sep ++ pyJoin sep ws

/-- normalize_text from src/main.py lines 195-199:
a space-join of text.lower().strip().split().  The strip before split is
redundant because split() already ignores outer whitespace; the falsy-text
guard maps empty (and null) input to the empty string. -/
def normalize_text (t : Str) : Str :=
  if t.isEmpty then [] else pyJoin [' '] (pyWords (t.map pyLower))

/-! ### The order-number pattern (src/main.py line 100)

ORDER_NUMBER_REGEX is a word-boundary anchored pattern: 2-5 uppercase
Cyrillic-or-Latin letters, a hyphen, 5-7 digits.  Its search semantics are
modelled deterministically: at a given start position the greedy quantifiers
admit at most one match, because the letter class excludes the hyphen, the
digit class excludes every character that may follow a trailing word
boundary, and both boundaries are checked against the neighbouring
characters only. -/

/-- The character class of the pattern: uppercase Latin A-Z or uppercase
Cyrillic (the Python range excludes the letter Yo, exactly as modelled). -/
def isUpperLetter (c : Char) : Bool :=
  ('A' ≤ c && c ≤ 'Z') || ('А' ≤ c && c ≤ 'Я')

/-- The regex digit class, restricted to the ASCII digits that occur in
this domain. -/
def isDigitCh (c : Char) : Bool := '0' ≤ c && c ≤ '9'

/-- The regex word class (backslash-w) over the alphabets of this domain:
Latin and Russian Cyrillic letters, digits and underscore. -/
def isWordChar (c : Char) : Bool :=
  ('a' ≤ c && c ≤ 'z') || ('A' ≤ c && c ≤ 'Z') || isDigitCh c || c = '_' ||
  ('а' ≤ c && c ≤ 'я') || ('А' ≤ c && c ≤ 'Я') || c = 'ё' || c = 'Ё'

/-- Trailing word boundary: holds at end of text or before a non-word
character (the character before the boundary is always a digit here, hence
a word character). -/
def wordBoundaryAfter : Str → Bool
  | [] => true
  | c :: _ => !isWordChar c

/-- Attempt to match the order-number pattern at the start of s.  prevW
records whether the character immediately before this position is a word
character (the leading word boundary fails exactly when it is, because a
successful match begins with a letter). -/
def matchAt (prevW : Bool) (s : Str) : Option Str :=
  if prevW then none
  else if 2 ≤ (s.takeWhile isUpperLetter).length ∧ (s.takeWhile isUpperLetter).length ≤ 5 then
    match s.drop (s.takeWhile isUpperLetter).length with
    | [] => none
    | c :: rest =>
      if c = '-' then
        if 5 ≤ (rest.takeWhile isDigitCh).length ∧ (rest.takeWhile isDigitCh).length ≤ 7 ∧
            wordBoundaryAfter (rest.drop (rest.takeWhile isDigitCh).length) = true then
          some (s.takeWhile isUpperLetter ++ '-' :: rest.takeWhile isDigitCh)
        else none
      else none
  else none

/-- re.search: try each position from the left, first success wins. -/
def searchNum (prevW : Bool) : Str → Option Str
  | [] => none
  | c :: rest =>
    match matchAt prevW (c :: rest) with
    | some m => some m
    | none => searchNum (isWordChar c) rest

/-- extract_order_number from src/main.py lines 102-106. -/
def extract_order_number (t : Str) : Option Str :=
  if t.isEmpty then none else searchNum false t

/-- The spec-side reading of the pattern, with no word boundaries: 2-5
uppercase letters, a hyphen, then 5-7 digits. -/
def SpecNumMatch (w : Str) : Prop :=
  ∃ a b : Str, w = a ++ '-' :: b ∧ (∀ c ∈ a, isUpperLetter c = true) ∧
    2 ≤ a.length ∧ a.length ≤ 5 ∧ (∀ c ∈ b, isDigitCh c = true) ∧
    5 ≤ b.length ∧ b.length ≤ 7

/-- Leading word-boundary condition expressed on the prefix preceding a
candidate match. -/
def noWordEnd (pre : Str) : Bool :=
  match pre.getLast? with
  | none => true
  | some c => !isWordChar c

/-- A word-boundary delimited occurrence of the pattern inside t. -/
def DelimOcc (t m : Str) : Prop :=
  ∃ pre post : Str, t = pre ++ m ++ post ∧ SpecNumMatch m ∧
    noWordEnd pre = true ∧ wordBoundaryAfter post = true

/-- Leading boundary state seen from a position: the boundary before the
match holds iff the last character of the preceding prefix (or the initial
state for the empty prefix) is not a word character. -/
def prevOK (prevW : Bool) (pre : Str) : Bool :=
  match pre.getLast? with
  | none => !prevW
  | some c => !isWordChar c

/-! ### The address extractor (src/main.py lines 108-140)

extract_address tries two date-anchored regex patterns and then a fallback
that takes everything after the first comma when an order number is present.
Both date patterns are deterministic at a fixed start position for the same
reason as the order-number pattern: each greedy sub-pattern is followed by a
character class disjoint from it, so backtracking never produces a second
candidate.  The only genuinely backtracking piece is the trailing
"backslash-s star (dot plus) dollar", which is modelled by the literal
greedy descent tailDescend. -/

/-- The regex fragment dot-plus-dollar applied at a position: a maximal run
of non-newline characters that must reach the end of the text, or the
position just before a single trailing newline. -/
def dotPlusEnd (g : Str) : Option Str :=
  if (g.takeWhile (fun c => !(c = '\n'))).isEmpty then none
  else if g.drop (g.takeWhile (fun c => !(c = '\n'))).length = []
      || g.drop (g.takeWhile (fun c => !(c = '\n'))).length = ['\n'] then
    some (g.takeWhile (fun c => !(c = '\n')))
  else none

/-- Greedy descent for backslash-s star: try consuming j whitespace
characters, largest j first. -/
def tailDescend (rest : Str) : Nat → Option Str
  | 0 => dotPlusEnd rest
  | j+1 =>
    match dotPlusEnd (rest.drop (j+1)) with
    | some g => some g
    | none => tailDescend rest j

/-- The common tail of both date patterns: comma already consumed, then
backslash-s star, then the captured group dot-plus up to dollar. -/
def tailMatch (rest : Str) : Option Str :=
  tailDescend rest (rest.takeWhile isPySpace).length

/-- Consume one expected literal character. -/
def expectChar (c : Char) : Str → Option Str
  | [] => none
  | d :: t => if d = c then some t else none

/-- Consume exactly n digits. -/
def expectDigits : Nat → Str → Option Str
  | 0, s => some s
  | _+1, [] => none
  | n+1, d :: t => if isDigitCh d then expectDigits n t else none

/-- Consume backslash-s plus: a nonempty maximal whitespace run (maximal is
forced because the following piece of both patterns never matches a
whitespace character). -/
def expectWsPlus (s : Str) : Option Str :=
  if (s.takeWhile isPySpace).isEmpty then none
  else some (s.drop (s.takeWhile isPySpace).length)

/-- Date prefix shared by both patterns: the lowercase Cyrillic word "ot",
whitespace, then DD.MM.YYYY. -/
def dateAt (s : Str) : Option Str := do
  let s ← expectChar 'о' s
  let s ← expectChar 'т' s
  let s ← expectWsPlus s
  let s ← expectDigits 2 s
  let s ← expectChar '.' s
  let s ← expectDigits 2 s
  let s ← expectChar '.' s
  expectDigits 4 s

/-- Pattern 1 (line 119) matched at a fixed position: date, whitespace, a
nonempty run of digits or colons, a comma, then the captured remainder. -/
def p1At (s : Str) : Option Str := do
  let s ← dateAt s
  let s ← expectWsPlus s
  let run := s.takeWhile (fun c => isDigitCh c || c = ':')
  if run.isEmpty then none
  else do
    let s2 ← expectChar ',' (s.drop run.length)
    tailMatch s2

/-- Pattern 2 (line 126) matched at a fixed position: date, then any
non-comma characters up to the first comma, then the captured remainder. -/
def p2At (s : Str) : Option Str := do
  let s ← dateAt s
  let s2 ← expectChar ',' (s.drop (s.takeWhile (fun c => !(c = ','))).length)
  tailMatch s2

/-- re.search over all start positions, leftmost success first. -/
def scanSearch (f : Str → Option Str) : Str → Option Str
  | [] => f []
  | c :: rest =>
    match f (c :: rest) with
    | some g => some g
    | none => scanSearch f rest

/-- re.search for pattern 1. -/
def p1Search (t : Str) : Option Str := scanSearch p1At t

/-- re.search for pattern 2. -/
def p2Search (t : Str) : Option Str := scanSearch p2At t

/-- Python text.split(sep) for a single-character separator. -/
def splitComma : Str → List Str
  | [] => [[]]
  | c :: t =>
    if c = ',' then [] :: splitComma t
    else
      match splitComma t with
      | [] => [[c]]
      | w :: ws => (c :: w) :: ws

/-- The rejection test of the fallback (line 137): after removing every
space, colon and period, a nonempty all-digit string remains (Python
str.isdigit on the stripped remainder). -/
def digitsOnlyStripped (a : Str) : Bool :=
  !(a.filter (fun c => !(c = ' ' || c = ':' || c = '.'))).isEmpty &&
    (a.filter (fun c => !(c = ' ' || c = ':' || c = '.'))).all isDigitCh

/-- Pattern 3, the fallback (lines 132-138): if the text contains an order
number and a comma, take everything after the first comma, trimmed; keep it
when longer than 5 characters and not digits-only after stripping. -/
def addrFallback (t : Str) : Option Str :=
  if (searchNum false t).isSome then
    if 2 ≤ (splitComma t).length then
      if 5 < (pyStrip (pyJoin [','] (splitComma t).tail)).length ∧
          digitsOnlyStripped (pyStrip (pyJoin [','] (splitComma t).tail)) = false then
        some (pyStrip (pyJoin [','] (splitComma t).tail))
      else none
    else none
  else none

/-- One date-pattern attempt of extract_address: a successful regex search
returns its stripped captured group only when longer than 5 characters
(lines 119-130); otherwise control falls through. -/
def tryPattern (res : Option Str) : Option Str :=
  match res with
  | some g => if 5 < (pyStrip g).length then some (pyStrip g) else none
  | none => none

/-- extract_address from src/main.py lines 108-140.  A date pattern whose
captured remainder strips to 5 characters or fewer does not return; control
falls through to the next pattern, exactly as in the source. -/
def extract_address (t : Str) : Option Str :=
  if t.isEmpty then none
  else
    match tryPattern (p1Search t) with
    | some a => some a
    | none =>
      match tryPattern (p2Search t) with
      | some a => some a
      | none => addrFallback t

/-! ### Records (rows of the orders table) and per-row processing -/

/-- A persisted record (the OrderRow model, src/main.py lines 55-71,
restricted to the fields the analyzer and the flags read). -/
structure OrderRec where
  id : Nat
  file_id : Nat
  raw_text : Str
  order_number : Option Str
  address : Option Str
  payout : Option ℚ
  worker_name : Option Str
  work_type : Str
  comment : Str
  parsed_ok : Bool
  is_problematic : Bool
deriving DecidableEq, Inhabited

/-- The display projection row_short (src/main.py lines 202-212). -/
structure RowShort where
  id : Nat
  file_id : Nat
  order_number : Option Str
  address : Option Str
  payout : Option ℚ
  worker_name : Option Str
  work_type : Str
  raw_text : Str
deriving DecidableEq, Inhabited

def row_short (r : OrderRec) : RowShort :=
  { id := r.id, file_id := r.file_id, order_number := r.order_number,
    address := r.address, payout := r.payout, worker_name := r.worker_name,
    work_type := r.work_type, raw_text := r.raw_text.take 100 }

/-- Python truthiness of an optional string: None and the empty string are
falsy. -/
def truthyS : Option Str → Bool
  | none => false
  | some s => !s.isEmpty

/-- One iteration of the row loop of upload_file (src/main.py lines
826-925), after the numeric cells have been parsed: diag_sum and insp_sum
are the parsed diagnostic and inspection amounts, 0.0 when the column is
unresolved, the cell is empty or parsing raises (lines 842-871); payout_val
is the parsed payout, None in those cases (lines 829-840); worker_raw and
comment_raw are the raw worker and comment cells when present.  Numbers are
modelled as rationals. -/
def processRow (rid fid : Nat) (text_cell : Str) (diag_sum insp_sum : ℚ)
    (payout_val : Option ℚ) (worker_raw comment_raw : Option Str) : OrderRec :=
  let order_number := extract_order_number text_cell
  let address := extract_address text_cell
  let work_type : Str :=
    if 0 < diag_sum then "diagnostic".toList
    else if 0 < insp_sum then "inspection".toList
    else
      match payout_val with
      | some p => if 5000 < p then "installation".toList else "other".toList
      | none => "other".toList
  let worker_name : Option Str :=
    match worker_raw with
    | none => none
    | some w =>
      if (pyStrip w).map pyLower ∈
          ["монтажник".toList, "исполнитель".toList, "фио".toList, ([] : Str)] then none
      else some (pyStrip w)
  let comment : Str :=
    match comment_raw with
    | none => []
    | some c => pyStrip c
  let bad : Bool := !truthyS order_number || !truthyS address
  { id := rid, file_id := fid,
    raw_text := text_cell.take 1000,
    order_number := order_number, address := address, payout := payout_val,
    worker_name := worker_name, work_type := work_type, comment := comment,
    parsed_ok := !bad, is_problematic := bad }

/-! ### Insertion-ordered grouping (Python defaultdict over an ordered dict)

groupByKey f l lists the distinct keys of l in order of first occurrence,
each with the sublist of elements carrying that key, in original order —
the observable content of the defaultdict(list) grouping used throughout
analyze_duplicates_for_file.  It is implemented with explicit fuel so that
it evaluates by kernel reduction. -/

def groupByKeyF {α κ : Type} [DecidableEq κ] (f : α → κ) : Nat → List α → List (κ × List α)
  | _, [] => []
  | 0, _ :: _ => []
  | n+1, a :: rest =>
    (f a, a :: rest.filter (fun b => decide (f b = f a))) ::
      groupByKeyF f n (rest.filter (fun b => !decide (f b = f a)))

def groupByKey {α κ : Type} [DecidableEq κ] (f : α → κ) (l : List α) : List (κ × List α) :=
  groupByKeyF f l.length l

/-! ### The duplicate analyzer (src/main.py lines 214-335) -/

/-- Python truthiness test of lines 236: a record takes part in the
order+address clustering only when both fields are non-null and nonempty. -/
def dupEligible (r : OrderRec) : Bool :=
  truthyS r.order_number && truthyS r.address

/-- The clustering key of lines 237-240: order number stripped and
upper-cased, address normalized. -/
def keyOf (r : OrderRec) : Str × Str :=
  ((pyStrip (r.order_number.getD [])).map pyUpper, normalize_text (r.address.getD []))

/-- One hard-duplicate report (lines 254-259). -/
structure HardDup where
  order_number : Str
  address : Option Str
  work_type : Str
  rows : List RowShort
deriving DecidableEq, Inhabited

/-- Pass 1 of analyze_duplicates_for_file (lines 231-259): cluster the
eligible records by key, and report every work-type sub-group of size at
least 2 of every cluster of size at least 2. -/
def hardDuplicates (orders : List OrderRec) : List HardDup :=
  (groupByKey keyOf (orders.filter dupEligible)).flatMap fun kc =>
    if kc.2.length < 2 then []
    else
      (groupByKey (fun r => r.work_type) kc.2).filterMap fun tg =>
        if 2 ≤ tg.2.length then
          some { order_number := kc.1.1, address := kc.2.headI.address,
                 work_type := tg.1, rows := tg.2.map row_short }
        else none

/-- The normalized address used by passes 2 and 3. -/
def normAddrOf (r : OrderRec) : Str := normalize_text (r.address.getD [])

/-- Participation test of the address-only pass (lines 266-270): address
truthy and normalized address longer than 5 characters. -/
def comboEligible (r : OrderRec) : Bool :=
  truthyS r.address && decide (5 < (normAddrOf r).length)

/-- The distinct truthy order numbers of a cluster (line 278); Python
builds a set, whose iteration order is unspecified, so the content is
modelled as a finite set. -/
def onsOf (rows : List OrderRec) : Finset Str :=
  ((rows.filter (fun r => truthyS r.order_number)).map
    (fun r => r.order_number.getD [])).toFinset

/-- The distinct work types of a cluster (line 277). -/
def wtsOf (rows : List OrderRec) : Finset Str :=
  (rows.map (fun r => r.work_type)).toFinset

/-- One combo report (lines 289-294). -/
structure ComboCluster where
  address : Option Str
  order_numbers : Finset Str
  work_types : Finset Str
  rows : List RowShort
deriving DecidableEq, Inhabited

def mkCombo (rows : List OrderRec) : ComboCluster :=
  { address := rows.headI.address, order_numbers := onsOf rows,
    work_types := wtsOf rows, rows := rows.map row_short }

/-- Pass 2 of analyze_duplicates_for_file (lines 261-294): cluster by the
normalized address alone and report every cluster of size at least 2 that
is not a single-order single-work-type group. -/
def comboClusters (orders : List OrderRec) : List ComboCluster :=
  (groupByKey normAddrOf (orders.filter comboEligible)).filterMap fun g =>
    if g.2.length < 2 then none
    else if (onsOf g.2).card = 1 ∧ (wtsOf g.2).card = 1 ∧ 2 ≤ g.2.length then none
    else some (mkCombo g.2)

/-- One needs-review report (lines 313-317). -/
structure ReviewCluster where
  order_number : Str
  addresses : List Str
  rows : List RowShort
deriving DecidableEq, Inhabited

/-- The order-only clustering key of line 302. -/
def reviewKeyOf (r : OrderRec) : Str := (pyStrip (r.order_number.getD [])).map pyUpper

/-- Pass 3 of analyze_duplicates_for_file (lines 296-317): cluster by order
number alone and report clusters whose members disagree on the normalized
address. -/
def needsReview (orders : List OrderRec) : List ReviewCluster :=
  (groupByKey reviewKeyOf (orders.filter (fun r => truthyS r.order_number))).filterMap fun g =>
    if g.2.length < 2 then none
    else if 2 ≤ (((g.2.filter (fun r => truthyS r.address)).map normAddrOf).toFinset).card then
      some { order_number := g.1,
             addresses := (g.2.filter (fun r => truthyS r.address)).map
               (fun r => r.address.getD []),
             rows := g.2.map row_short }
    else none

/-- The analysis report bundle (lines 326-335).  Note: the dictionary
returned by the source has no key clusters_with_multiple_count, which
upload_file nevertheless reads at line 938. -/
structure AnalysisResult where
  hard_duplicates_count : Nat
  combo_clusters_count : Nat
  needs_review_count : Nat
  problematic_count : Nat
  hard_duplicates_sample : List HardDup
  combo_clusters_sample : List ComboCluster
  needs_review_sample : List ReviewCluster
  problematic_sample : List RowShort
deriving DecidableEq, Inhabited

/-- analyze_duplicates_for_file (lines 214-335) over the stored records.
Python's if file_id: treats both None and 0 as no scoping. -/
def analyze_duplicates_for_file (db : List OrderRec) (file_id : Option Nat) : AnalysisResult :=
  let base :=
    match file_id with
    | some fid => if fid = 0 then db else db.filter (fun r => decide (r.file_id = fid))
    | none => db
  { hard_duplicates_count := (hardDuplicates base).length,
    combo_clusters_count := (comboClusters base).length,
    needs_review_count := (needsReview base).length,
    problematic_count := (base.filter (fun r => r.is_problematic)).length,
    hard_duplicates_sample := (hardDuplicates base).take 50,
    combo_clusters_sample := (comboClusters base).take 50,
    needs_review_sample := (needsReview base).take 50,
    problematic_sample := ((base.filter (fun r => r.is_problematic)).take 50).map row_short }

/-! ### Spec-side descriptions of the analyzer output -/

/-- The members of the key cluster of k, as a filter. -/
def clusterOf (orders : List OrderRec) (k : Str × Str) : List OrderRec :=
  (orders.filter dupEligible).filter (fun r => decide (keyOf r = k))

/-- The members of the key cluster of k with work type wt. -/
def subOf (orders : List OrderRec) (k : Str × Str) (wt : Str) : List OrderRec :=
  (clusterOf orders k).filter (fun r => decide (r.work_type = wt))

/-- The hard-duplicate report a qualifying (key, work type) pair produces. -/
def mkHardDup (orders : List OrderRec) (k : Str × Str) (wt : Str) : HardDup :=
  { order_number := k.1, address := (clusterOf orders k).headI.address,
    work_type := wt, rows := (subOf orders k wt).map row_short }

def pairKeyOf (r : OrderRec) : (Str × Str) × Str := (keyOf r, r.work_type)

/-- The set of qualifying (clustering key, work type) pairs: the sub-group
has at least 2 members. -/
def hardQualPairs (orders : List OrderRec) : Finset ((Str × Str) × Str) :=
  (((orders.filter dupEligible).map pairKeyOf).toFinset).filter
    (fun p => 2 ≤ (subOf orders p.1 p.2).length)

/-- The members of the address-only cluster of normalized address na. -/
def comboClusterOf (orders : List OrderRec) (na : Str) : List OrderRec :=
  (orders.filter comboEligible).filter (fun r => decide (normAddrOf r = na))

/-- The pair a report originates from, recomputed from its fields. -/
def hdKeyOf (e : HardDup) : (Str × Str) × Str :=
  ((e.order_number, normalize_text ((e.rows.headI).address.getD [])), e.work_type)

/-- Demo records for the C4 witness: two installation payouts for the same
order at the same address. -/
def c4DemoRec1 : OrderRec :=
  { id := 1, file_id := 1, raw_text := [], order_number := some ("KAUT-001410".toList),
    address := some ("МО, г. Дмитров".toList), payout := some 6000,
    worker_name := none, work_type := "installation".toList, comment := [],
    parsed_ok := true, is_problematic := false }

def c4DemoRec2 : OrderRec :=
  { c4DemoRec1 with id := 2, payout := some 7000 }

/-! ### Characterization of the combo pass -/

/-- The normalized address a combo report originates from, recomputed from
its member list. -/
def comboKeyOf (c : ComboCluster) : Str :=
  normalize_text ((c.rows.headI).address.getD [])

/-- Demo records for C3: two records with work type other sharing an
address but with different order numbers. -/
def c3OtherRec1 : OrderRec :=
  { id := 1, file_id := 1, raw_text := [], order_number := some ("AB-11111".toList),
    address := some ("проспект мира 10".toList), payout := some 100,
    worker_name := none, work_type := "other".toList, comment := [],
    parsed_ok := true, is_problematic := false }

def c3OtherRec2 : OrderRec :=
  { c3OtherRec1 with id := 2, order_number := some ("CD-22222".toList) }

/-- Demo records for the C10 witness: a combo cluster over one address with
two distinct order numbers. -/
def c10DemoRec1 : OrderRec :=
  { id := 1, file_id := 1, raw_text := [], order_number := some ("AB-33333".toList),
    address := some ("улица садовая 5".toList), payout := some 100,
    worker_name := none, work_type := "other".toList, comment := [],
    parsed_ok := true, is_problematic := false }

def c10DemoRec2 : OrderRec :=
  { c10DemoRec1 with id := 2, order_number := some ("CD-44444".toList) }

/-! ### The upload handler (src/main.py lines 634-945) -/

/-- A successfully read spreadsheet: its filename and cleaned header
labels.  The data rows are irrelevant to the modelled control flow, which
aborts before the row loop (see uploadFile). -/
structure SheetTable where
  filename : Str
  columns : List Str
deriving DecidableEq, Inhabited

/-- A committed row of the files table (lines 48-53). -/
structure DbFileRec where
  id : Nat
  filename : Str
deriving DecidableEq, Inhabited

/-- The committed database state the handler leaves behind. -/
structure DbState where
  files : List DbFileRec
  rows : List OrderRec
deriving DecidableEq, Inhabited

/-- The handler's observable outcome: the 400 response of lines 653-657, an
uncaught exception escaping the handler, or the success payload of lines
931-945 (never produced). -/
inductive UploadOutcome where
  | badRequest (msg : Str)
  | raised (exc : String)
  | success (file_id total_rows saved_rows problematic_rows : Nat)
deriving DecidableEq

def isSuccess : UploadOutcome → Bool
  | .success _ _ _ _ => true
  | _ => false

/-- Python substring membership: does the text start with the needle. -/
def startsWithSub : Str → Str → Bool
  | [], _ => true
  | _ :: _, [] => false
  | c :: cs, d :: ds => (c = d) && startsWithSub cs ds

/-- Python substring membership (the in operator on strings). -/
def containsSub (needle : Str) : Str → Bool
  | [] => needle.isEmpty
  | d :: ds => startsWithSub needle (d :: ds) || containsSub needle ds

/-- Header-name test of lines 696 and 708: contains the total keyword and
not the revenue keyword, case-insensitively after stripping. -/
def payoutColName (c : Str) : Bool :=
  containsSub ("итого".toList) ((pyStrip c).map pyLower) &&
    !containsSub ("выручка".toList) ((pyStrip c).map pyLower)

/-- Payout column search of lines 689-713: first matching header by name,
else the fixed index probe order 18, 17, 19, 16, 20, 15. -/
def locatePayoutCol (cols : List Str) : Option (Nat × Str) :=
  match cols.enum.find? (fun ic => payoutColName ic.2) with
  | some ic => some ic
  | none =>
    ([18, 17, 19, 16, 20, 15].filterMap (fun idx =>
      match cols.get? idx with
      | some c => if payoutColName c then some (idx, c) else none
      | none => none)).head?

/-- upload_file (lines 634-945).  After a successful read the handler
creates and commits the file record (lines 660-663) and locates the payout
column (lines 689-713); at line 723 it then reads the local variable
diagnostic_col, which is first assigned only at line 737, so Python raises
UnboundLocalError unconditionally there: the row loop, the single commit of
the rows (line 927) and the response literal (lines 931-945) are
unreachable dead code.  A failed read returns the 400 error with no state
change. -/
def uploadFile (freshId : Nat) (readResult : Except Str SheetTable) :
    DbState × UploadOutcome :=
  match readResult with
  | .error e => (⟨[], []⟩, .badRequest e)
  | .ok tbl =>
    let committed : DbState := ⟨[⟨freshId, tbl.filename⟩], []⟩
    let _payout := locatePayoutCol tbl.columns
    (committed,
     .raised "UnboundLocalError: local variable diagnostic_col referenced before assignment")

/-! ### Facts about the character maps and the word splitter -/

theorem charToNat_ofNat_small {n : Nat} (h : n < 55296) : (Char.ofNat n).toNat = n := by
  have hv : n.isValidChar := Or.inl h
  rw [Char.ofNat, dif_pos hv]
  simp [Char.ofNatAux, Char.toNat, UInt32.toNat, BitVec.toNat_ofNatLt]

theorem pyLower_fix (d : Char) (h1 : ¬ (65 ≤ d.toNat ∧ d.toNat ≤ 90))
    (h2 : ¬ (1040 ≤ d.toNat ∧ d.toNat ≤ 1071)) (h3 : ¬ d.toNat = 1025) :
    pyLower d = d := by
  unfold pyLower
  simp only [if_neg h1, if_neg h2, if_neg h3]

theorem pyLower_idem (c : Char) : pyLower (pyLower c) = pyLower c := by
  by_cases h1 : 65 ≤ c.toNat ∧ c.toNat ≤ 90
  · have hc : pyLower c = Char.ofNat (c.toNat + 32) := by
      unfold pyLower; simp only [if_pos h1]
    have ht : (Char.ofNat (c.toNat + 32)).toNat = c.toNat + 32 :=
      charToNat_ofNat_small (by omega)
    rw [hc]
    apply pyLower_fix <;> rw [ht] <;> omega
  · by_cases h2 : 1040 ≤ c.toNat ∧ c.toNat ≤ 1071
    · have hc : pyLower c = Char.ofNat (c.toNat + 32) := by
        unfold pyLower; simp only [if_neg h1, if_pos h2]
      have ht : (Char.ofNat (c.toNat + 32)).toNat = c.toNat + 32 :=
        charToNat_ofNat_small (by omega)
      rw [hc]
      apply pyLower_fix <;> rw [ht] <;> omega
    · by_cases h3 : c.toNat = 1025
      · have hc : pyLower c = Char.ofNat 1105 := by
          unfold pyLower; simp only [if_neg h1, if_neg h2, if_pos h3]
        have ht : (Char.ofNat 1105).toNat = 1105 := charToNat_ofNat_small (by omega)
        rw [hc]
        apply pyLower_fix <;> rw [ht] <;> omega
      · rw [pyLower_fix c h1 h2 h3]
        exact pyLower_fix c h1 h2 h3

theorem pyWordsAux_nil_eq (acc : Str) :
    pyWordsAux [] acc = if acc.isEmpty then [] else [acc.reverse] := rfl

theorem pyWordsAux_cons_eq (c : Char) (t acc : Str) :
    pyWordsAux (c :: t) acc =
      if isPySpace c then
        if acc.isEmpty then pyWordsAux t [] else acc.reverse :: pyWordsAux t []
      else pyWordsAux t (c :: acc) := rfl

theorem pyWordsAux_nonspace : ∀ (s acc : Str), (∀ c ∈ acc, isPySpace c = false) →
    ∀ w ∈ pyWordsAux s acc, w ≠ [] ∧ ∀ c ∈ w, isPySpace c = false := by
  intro s
  induction s with
  | nil =>
    intro acc hacc w hw
    rw [pyWordsAux_nil_eq] at hw
    cases acc with
    | nil => simp at hw
    | cons a as =>
      simp only [List.isEmpty_cons, if_false, List.mem_singleton, Bool.false_eq_true] at hw
      subst hw
      refine ⟨by simp, ?_⟩
      intro c hc
      exact hacc c (List.mem_reverse.mp hc)
  | cons c t ih =>
    intro acc hacc w hw
    rw [pyWordsAux_cons_eq] at hw
    by_cases hsp : isPySpace c
    · simp only [hsp, if_true] at hw
      cases acc with
      | nil =>
        simp only [List.isEmpty_nil, if_true] at hw
        exact ih [] (by simp) w hw
      | cons a as =>
        simp only [List.isEmpty_cons, Bool.false_eq_true, if_false, List.mem_cons] at hw
        rcases hw with hw | hw
        · subst hw
          refine ⟨by simp, ?_⟩
          intro d hd
          exact hacc d (List.mem_reverse.mp hd)
        · exact ih [] (by simp) w hw
    · simp only [hsp, if_false] at hw
      refine ih (c :: acc) ?_ w hw
      intro d hd
      rcases List.mem_cons.mp hd with hd | hd
      · subst hd; simpa using hsp
      · exact hacc d hd

theorem pyWordsAux_chars : ∀ (s acc : Str), ∀ w ∈ pyWordsAux s acc, ∀ ch ∈ w, ch ∈ s ∨ ch ∈ acc := by
  intro s
  induction s with
  | nil =>
    intro acc w hw ch hch
    rw [pyWordsAux_nil_eq] at hw
    cases acc with
    | nil => simp at hw
    | cons a as =>
      simp only [List.isEmpty_cons, Bool.false_eq_true, if_false, List.mem_singleton] at hw
      subst hw
      exact Or.inr (List.mem_reverse.mp hch)
  | cons c t ih =>
    intro acc w hw ch hch
    rw [pyWordsAux_cons_eq] at hw
    by_cases hsp : isPySpace c
    · simp only [hsp, if_true] at hw
      cases acc with
      | nil =>
        simp only [List.isEmpty_nil, if_true] at hw
        rcases ih [] w hw ch hch with h | h
        · exact Or.inl (List.mem_cons_of_mem _ h)
        · simp at h
      | cons a as =>
        simp only [List.isEmpty_cons, Bool.false_eq_true, if_false, List.mem_cons] at hw
        rcases hw with hw | hw
        · subst hw; exact Or.inr (List.mem_reverse.mp hch)
        · rcases ih [] w hw ch hch with h | h
          · exact Or.inl (List.mem_cons_of_mem _ h)
          · simp at h
    · simp only [hsp, if_false] at hw
      rcases ih (c :: acc) w hw ch hch with h | h
      · exact Or.inl (List.mem_cons_of_mem _ h)
      · rcases List.mem_cons.mp h with h | h
        · exact Or.inl (by simp [h])
        · exact Or.inr h

theorem pyWordsAux_append_word : ∀ (w r acc : Str), (∀ c ∈ w, isPySpace c = false) →
    pyWordsAux (w ++ r) acc = pyWordsAux r (w.reverse ++ acc) := by
  intro w
  induction w with
  | nil => intro r acc _; simp
  | cons c w' ih =>
    intro r acc hns
    have hc : isPySpace c = false := hns c (by simp)
    have : (c :: w') ++ r = c :: (w' ++ r) := rfl
    rw [this, pyWordsAux_cons_eq]
    simp only [hc, Bool.false_eq_true, if_false]
    rw [ih r (c :: acc) (fun d hd => hns d (List.mem_cons_of_mem _ hd))]
    simp [List.append_assoc]

theorem pyWordsAux_nil_of_ne (acc : Str) (h : acc ≠ []) :
    pyWordsAux [] acc = [acc.reverse] := by
  rw [pyWordsAux_nil_eq, if_neg]
  simp [List.isEmpty_iff, h]

theorem pyWordsAux_space_cons (c : Char) (t acc : Str) (hc : isPySpace c = true)
    (h : acc ≠ []) :
    pyWordsAux (c :: t) acc = acc.reverse :: pyWordsAux t [] := by
  rw [pyWordsAux_cons_eq, if_pos hc, if_neg]
  simp [List.isEmpty_iff, h]

theorem pyWords_join : ∀ ws : List Str,
    (∀ w ∈ ws, w ≠ [] ∧ ∀ c ∈ w, isPySpace c = false) →
    pyWords (pyJoin [' '] ws) = ws := by
  intro ws
  induction ws with
  | nil => intro _; simp [pyWords, pyJoin, pyWordsAux]
  | cons w ws' ih =>
    intro h
    obtain ⟨hw, hwns⟩ := h w (by simp)
    cases ws' with
    | nil =>
      show pyWords (pyJoin [' '] [w]) = [w]
      have hj : pyJoin [' '] [w] = w := rfl
      rw [hj, pyWords]
      have h1 : pyWordsAux w [] = pyWordsAux (w ++ []) [] := by simp
      rw [h1, pyWordsAux_append_word w [] [] hwns, pyWordsAux_nil_of_ne]
      · simp
      · simp [hw]
    | cons w2 ws'' =>
      have hjoin : pyJoin [' '] (w :: w2 :: ws'') = w ++ (' ' :: pyJoin [' '] (w2 :: ws'')) := by
        show w ++ [' '] ++ pyJoin [' '] (w2 :: ws'') = _
        simp [List.append_assoc]
      rw [pyWords, hjoin, pyWordsAux_append_word w _ [] hwns,
        pyWordsAux_space_cons _ _ _ (by decide) (by simp [hw])]
      have hws : pyWordsAux (pyJoin [' '] (w2 :: ws'')) [] = w2 :: ws'' :=
        ih (fun v hv => h v (List.mem_cons_of_mem _ hv))
      rw [hws]
      simp

theorem pyJoin_space_chars : ∀ (ws : List Str) (c : Char),
    c ∈ pyJoin [' '] ws → c = ' ' ∨ ∃ w ∈ ws, c ∈ w := by
  intro ws
  induction ws with
  | nil => intro c hc; simp [pyJoin] at hc
  | cons w ws' ih =>
    intro c hc
    cases ws' with
    | nil =>
      have hj : pyJoin [' '] [w] = w := rfl
      rw [hj] at hc
      exact Or.inr ⟨w, by simp, hc⟩
    | cons w2 ws'' =>
      have hj : pyJoin [' '] (w :: w2 :: ws'') = w ++ [' '] ++ pyJoin [' '] (w2 :: ws'') := rfl
      rw [hj] at hc
      rcases List.mem_append.mp hc with hc | hc
      · rcases List.mem_append.mp hc with hc | hc
        · exact Or.inr ⟨w, by simp, hc⟩
        · simp at hc; exact Or.inl hc
      · rcases ih c hc with h | ⟨v, hv, hcv⟩
        · exact Or.inl h
        · exact Or.inr ⟨v, List.mem_cons_of_mem _ hv, hcv⟩

theorem map_self_of_fix {α : Type} (f : α → α) :
    ∀ l : List α, (∀ a ∈ l, f a = a) → l.map f = l := by
  intro l
  induction l with
  | nil => intro _; rfl
  | cons a t ih =>
    intro h
    simp only [List.map_cons, h a (by simp), ih (fun b hb => h b (List.mem_cons_of_mem _ hb))]

/-- C9: the text normalizer is idempotent, and empty (or null, which the
falsy-input guard treats identically) input yields the empty string. -/
theorem normalize_text_idempotent :
    (∀ x : Str, normalize_text (normalize_text x) = normalize_text x) ∧
    normalize_text [] = [] := by
  constructor
  · intro x
    by_cases hx : x.isEmpty
    · simp [normalize_text, hx]
    · have hinner : normalize_text x = pyJoin [' '] (pyWords (x.map pyLower)) := by
        rw [normalize_text, if_neg hx]
      set ws := pyWords (x.map pyLower) with hws
      have hprops : ∀ w ∈ ws, w ≠ [] ∧ ∀ c ∈ w, isPySpace c = false :=
        pyWordsAux_nonspace (x.map pyLower) [] (by simp)
      by_cases hj : (pyJoin [' '] ws).isEmpty
      · rw [hinner]
        rw [normalize_text, if_pos hj]
        exact (List.isEmpty_iff.mp hj).symm
      · rw [hinner, normalize_text, if_neg hj]
        have hfix : (pyJoin [' '] ws).map pyLower = pyJoin [' '] ws := by
          apply map_self_of_fix
          intro c hc
          rcases pyJoin_space_chars ws c hc with hsp | ⟨w, hwmem, hcw⟩
          · subst hsp; decide
          · have : c ∈ x.map pyLower := by
              rcases pyWordsAux_chars (x.map pyLower) [] w hwmem c hcw with h | h
              · exact h
              · simp at h
            rcases List.mem_map.mp this with ⟨d, _, hd⟩
            rw [← hd]
            exact pyLower_idem d
        rw [hfix, pyWords_join ws hprops]
  · rfl

/-! ### Correctness of the order-number search -/

theorem takeWhile_append_all {α : Type} {p : α → Bool} :
    ∀ (a b : List α), (∀ c ∈ a, p c = true) → (∀ c cs, b = c :: cs → p c = false) →
    (a ++ b).takeWhile p = a := by
  intro a
  induction a with
  | nil =>
    intro b _ hb
    cases b with
    | nil => rfl
    | cons c cs => simp [List.takeWhile_cons, hb c cs rfl]
  | cons x a' ih =>
    intro b ha hb
    have hx : p x = true := ha x (by simp)
    simp [List.takeWhile_cons, hx,
      ih b (fun c hc => ha c (List.mem_cons_of_mem _ hc)) hb]

theorem isDigit_isWord {c : Char} (h : isDigitCh c = true) : isWordChar c = true := by
  simp [isWordChar, h]

theorem takeWhile_prefix_take {α : Type} (p : α → Bool) (l : List α) :
    l.take (l.takeWhile p).length = l.takeWhile p := by
  have h := List.takeWhile_prefix (l := l) (p := p)
  exact (List.prefix_iff_eq_take.mp h).symm

theorem matchAt_some (prevW : Bool) (s m : Str) (h : matchAt prevW s = some m) :
    prevW = false ∧ ∃ post : Str, s = m ++ post ∧ SpecNumMatch m ∧
      wordBoundaryAfter post = true := by
  unfold matchAt at h
  by_cases hp : prevW = true
  · simp [hp] at h
  · have hp' : prevW = false := by simpa using hp
    refine ⟨hp', ?_⟩
    rw [hp'] at h
    simp only [Bool.false_eq_true, if_false] at h
    by_cases hL : 2 ≤ (s.takeWhile isUpperLetter).length ∧ (s.takeWhile isUpperLetter).length ≤ 5
    · rw [if_pos hL] at h
      rcases hdrop : s.drop (s.takeWhile isUpperLetter).length with _ | ⟨c, rest⟩
      · rw [hdrop] at h; simp at h
      · rw [hdrop] at h
        dsimp only at h
        by_cases hc : c = '-'
        · rw [if_pos hc] at h
          by_cases hD : 5 ≤ (rest.takeWhile isDigitCh).length ∧
              (rest.takeWhile isDigitCh).length ≤ 7 ∧
              wordBoundaryAfter (rest.drop (rest.takeWhile isDigitCh).length) = true
          · rw [if_pos hD] at h
            have hm : m = s.takeWhile isUpperLetter ++ '-' :: rest.takeWhile isDigitCh :=
              (Option.some.inj h).symm
            refine ⟨rest.drop (rest.takeWhile isDigitCh).length, ?_, ?_, hD.2.2⟩
            · have hs : s = s.takeWhile isUpperLetter ++ (c :: rest) := by
                conv_lhs => rw [← List.take_append_drop (s.takeWhile isUpperLetter).length s]
                rw [takeWhile_prefix_take, hdrop]
              have hrest : rest = rest.takeWhile isDigitCh ++
                  rest.drop (rest.takeWhile isDigitCh).length := by
                conv_lhs => rw [← List.take_append_drop (rest.takeWhile isDigitCh).length rest]
                rw [takeWhile_prefix_take]
              rw [hs, hc, hm]
              conv_lhs => rw [hrest]
              simp
            · refine ⟨s.takeWhile isUpperLetter, rest.takeWhile isDigitCh, hm, ?_, hL.1, hL.2,
                ?_, hD.1, hD.2.1⟩
              · intro d hd; exact List.mem_takeWhile_imp hd
              · intro d hd; exact List.mem_takeWhile_imp hd
          · rw [if_neg hD] at h; simp at h
        · rw [if_neg hc] at h; simp at h
    · rw [if_neg hL] at h; simp at h

theorem matchAt_complete (s m post : Str) (hs : s = m ++ post) (hm : SpecNumMatch m)
    (hb : wordBoundaryAfter post = true) : matchAt false s = some m := by
  obtain ⟨a, b, hab, haU, ha2, ha5, hbD, hb5, hb7⟩ := hm
  have hs' : s = a ++ ('-' :: (b ++ post)) := by rw [hs, hab]; simp
  have htw : s.takeWhile isUpperLetter = a := by
    rw [hs']
    apply takeWhile_append_all a _ haU
    intro c cs hcs
    injection hcs with h1 _
    rw [← h1]; decide
  have hdrop : s.drop (s.takeWhile isUpperLetter).length = '-' :: (b ++ post) := by
    rw [htw, hs', List.drop_left]
  have htwd : (b ++ post).takeWhile isDigitCh = b := by
    apply takeWhile_append_all b _ hbD
    intro c cs hcs
    have hw : isWordChar c = false := by
      rw [hcs] at hb
      simpa [wordBoundaryAfter] using hb
    by_cases hd : isDigitCh c = true
    · rw [isDigit_isWord hd] at hw; cases hw
    · simpa using hd
  have hdropd : (b ++ post).drop ((b ++ post).takeWhile isDigitCh).length = post := by
    rw [htwd, List.drop_left]
  have hcond : 2 ≤ (s.takeWhile isUpperLetter).length ∧ (s.takeWhile isUpperLetter).length ≤ 5 := by
    rw [htw]; exact ⟨ha2, ha5⟩
  have hcond2 : 5 ≤ ((b ++ post).takeWhile isDigitCh).length ∧
      ((b ++ post).takeWhile isDigitCh).length ≤ 7 ∧
      wordBoundaryAfter ((b ++ post).drop ((b ++ post).takeWhile isDigitCh).length) = true := by
    rw [htwd, List.drop_left]; exact ⟨hb5, hb7, hb⟩
  unfold matchAt
  rw [if_neg (by simp), if_pos hcond, hdrop]
  dsimp only
  rw [if_pos rfl, if_pos hcond2, htw, htwd, hab]

theorem prevOK_cons (prevW : Bool) (c : Char) (pre : Str) :
    prevOK prevW (c :: pre) = prevOK (isWordChar c) pre := by
  cases pre with
  | nil => simp [prevOK]
  | cons d pre' =>
    unfold prevOK
    rw [List.getLast?_cons_cons]
    rcases hlast : (d :: pre').getLast? with _ | e
    · rw [List.getLast?_eq_none_iff] at hlast
      cases hlast
    · rfl

theorem specNumMatch_ne_nil {m : Str} (hm : SpecNumMatch m) : m ≠ [] := by
  obtain ⟨a, b, hab, _⟩ := hm
  rw [hab]
  simp

theorem searchNum_eq_none_parts {prevW : Bool} {c : Char} {rest : Str}
    (h : searchNum prevW (c :: rest) = none) :
    matchAt prevW (c :: rest) = none ∧ searchNum (isWordChar c) rest = none := by
  unfold searchNum at h
  rcases hm : matchAt prevW (c :: rest) with _ | m
  · rw [hm] at h
    exact ⟨rfl, h⟩
  · rw [hm] at h
    simp at h

theorem searchNum_none : ∀ (s : Str) (prevW : Bool), searchNum prevW s = none →
    ∀ m pre post, s = pre ++ m ++ post → SpecNumMatch m → prevOK prevW pre = true →
    wordBoundaryAfter post = true → False := by
  intro s
  induction s with
  | nil =>
    intro prevW _ m pre post hdec hm _ _
    have h1 := List.append_eq_nil.mp hdec.symm
    have h2 := List.append_eq_nil.mp h1.1
    exact specNumMatch_ne_nil hm h2.2
  | cons c rest ih =>
    intro prevW h m pre post hdec hm hpre hpost
    obtain ⟨hm0, hrec⟩ := searchNum_eq_none_parts h
    cases pre with
    | nil =>
      have hpw : prevW = false := by simpa [prevOK] using hpre
      rw [hpw] at hm0
      rw [matchAt_complete (c :: rest) m post (by simpa using hdec) hm hpost] at hm0
      cases hm0
    | cons p pre' =>
      have hp : p = c ∧ rest = pre' ++ m ++ post := by
        have : p :: (pre' ++ m ++ post) = c :: rest := by simpa using hdec.symm
        injection this with h1 h2
        exact ⟨h1, h2.symm⟩
      rw [hp.1] at hpre
      rw [prevOK_cons] at hpre
      exact ih (isWordChar c) hrec m pre' post hp.2 hm hpre hpost

theorem searchNum_some : ∀ (s : Str) (prevW : Bool) (m : Str), searchNum prevW s = some m →
    ∃ pre post, s = pre ++ m ++ post ∧ SpecNumMatch m ∧ prevOK prevW pre = true ∧
      wordBoundaryAfter post = true ∧
      ∀ m2 pre2 post2, s = pre2 ++ m2 ++ post2 → SpecNumMatch m2 →
        prevOK prevW pre2 = true → wordBoundaryAfter post2 = true →
        pre.length ≤ pre2.length := by
  intro s
  induction s with
  | nil => intro prevW m h; simp [searchNum] at h
  | cons c rest ih =>
    intro prevW m h
    unfold searchNum at h
    rcases hm0 : matchAt prevW (c :: rest) with _ | m'
    · rw [hm0] at h
      obtain ⟨pre', post', hdec, hsm, hpre, hpost, hmin⟩ := ih (isWordChar c) m h
      refine ⟨c :: pre', post', by simp [hdec], hsm, ?_, hpost, ?_⟩
      · rw [prevOK_cons]; exact hpre
      · intro m2 pre2 post2 hdec2 hsm2 hpre2 hpost2
        cases pre2 with
        | nil =>
          exfalso
          have hpw : prevW = false := by simpa [prevOK] using hpre2
          rw [hpw] at hm0
          rw [matchAt_complete (c :: rest) m2 post2 (by simpa using hdec2) hsm2 hpost2] at hm0
          cases hm0
        | cons p pre2' =>
          have hp : p = c ∧ rest = pre2' ++ m2 ++ post2 := by
            have : p :: (pre2' ++ m2 ++ post2) = c :: rest := by simpa using hdec2.symm
            injection this with h1 h2
            exact ⟨h1, h2.symm⟩
          rw [hp.1, prevOK_cons] at hpre2
          have := hmin m2 pre2' post2 hp.2 hsm2 hpre2 hpost2
          simpa using Nat.succ_le_succ this
    · rw [hm0] at h
      have hmm : m' = m := by simpa using h
      rw [hmm] at hm0
      obtain ⟨hpw, post, hdec, hsm, hpost⟩ := matchAt_some prevW (c :: rest) m hm0
      refine ⟨[], post, by simpa using hdec, hsm, by simp [prevOK, hpw], hpost, ?_⟩
      intro m2 pre2 post2 _ _ _ _
      simp

theorem noWordEnd_eq (pre : Str) : prevOK false pre = noWordEnd pre := by
  unfold prevOK noWordEnd
  rcases hl : pre.getLast? with _ | e
  · rfl
  · rfl

theorem extract_order_number_sound (t m : Str) (h : extract_order_number t = some m) :
    ∃ pre post, t = pre ++ m ++ post ∧ SpecNumMatch m ∧ noWordEnd pre = true ∧
      wordBoundaryAfter post = true ∧
      ∀ m2 pre2 post2, t = pre2 ++ m2 ++ post2 → SpecNumMatch m2 →
        noWordEnd pre2 = true → wordBoundaryAfter post2 = true →
        pre.length ≤ pre2.length := by
  unfold extract_order_number at h
  by_cases ht : t.isEmpty
  · rw [if_pos ht] at h; cases h
  · rw [if_neg ht] at h
    obtain ⟨pre, post, hdec, hsm, hpre, hpost, hmin⟩ := searchNum_some t false m h
    refine ⟨pre, post, hdec, hsm, by rw [← noWordEnd_eq]; exact hpre, hpost, ?_⟩
    intro m2 pre2 post2 h1 h2 h3 h4
    exact hmin m2 pre2 post2 h1 h2 (by rw [noWordEnd_eq]; exact h3) h4

/-- C6 counterexample: the text AB1CD-12345 contains the substring CD-12345,
which matches the claimed pattern (2-5 uppercase letters, hyphen, 5-7
digits), yet extract_order_number returns null, because the regex requires
a word boundary before the letters and the digit 1 precedes CD. -/
theorem extract_order_number_counterexample :
    extract_order_number ("AB1CD-12345".toList) = none ∧
    ∃ m pre post : Str, "AB1CD-12345".toList = pre ++ m ++ post ∧ SpecNumMatch m := by
  refine ⟨by decide, "CD-12345".toList, "AB1".toList, [], by decide,
    "CD".toList, "12345".toList, by decide, by decide, by decide, by decide,
    by decide, by decide, by decide⟩

/-- C6 (amended): extract_order_number returns the first word-boundary
delimited match of the pattern (2-5 uppercase Cyrillic or Latin letters, a
hyphen, 5-7 digits) — first meaning the delimited match whose preceding
prefix is shortest — and returns null exactly when no word-boundary
delimited match exists (in particular for empty input). -/
theorem extract_order_number_amended (t : Str) :
    (extract_order_number t = none ↔ ∀ m, ¬ DelimOcc t m) ∧
    (∀ m, extract_order_number t = some m →
      ∃ pre post, t = pre ++ m ++ post ∧ SpecNumMatch m ∧ noWordEnd pre = true ∧
        wordBoundaryAfter post = true ∧
        ∀ m2 pre2 post2, t = pre2 ++ m2 ++ post2 → SpecNumMatch m2 →
          noWordEnd pre2 = true → wordBoundaryAfter post2 = true →
          pre.length ≤ pre2.length) := by
  constructor
  · constructor
    · intro hnone m hocc
      obtain ⟨pre, post, hdec, hsm, hpre, hpost⟩ := hocc
      by_cases ht : t.isEmpty
      · have hnil : t = [] := List.isEmpty_iff.mp ht
        rw [hnil] at hdec
        have h1 := List.append_eq_nil.mp hdec.symm
        have h2 := List.append_eq_nil.mp h1.1
        exact specNumMatch_ne_nil hsm h2.2
      · have hs : searchNum false t = none := by
          rw [extract_order_number, if_neg ht] at hnone
          exact hnone
        exact searchNum_none t false hs m pre post hdec hsm
          (by rw [noWordEnd_eq]; exact hpre) hpost
    · intro hno
      rcases hs : extract_order_number t with _ | m
      · rfl
      · exfalso
        obtain ⟨pre, post, hdec, hsm, hpre, hpost, _⟩ := extract_order_number_sound t m hs
        exact hno m ⟨pre, post, hdec, hsm, hpre, hpost⟩
  · intro m h
    exact extract_order_number_sound t m h

/-- Witness for C6 (amended) at a concrete order line. -/
theorem extract_order_number_amended_witness :
    ∃ pre post : Str, "КАУТ-001410, МО".toList = pre ++ "КАУТ-001410".toList ++ post ∧
      SpecNumMatch ("КАУТ-001410".toList) ∧ noWordEnd pre = true ∧
      wordBoundaryAfter post = true ∧
      ∀ m2 pre2 post2, "КАУТ-001410, МО".toList = pre2 ++ m2 ++ post2 → SpecNumMatch m2 →
        noWordEnd pre2 = true → wordBoundaryAfter post2 = true →
        pre.length ≤ pre2.length :=
  (extract_order_number_amended ("КАУТ-001410, МО".toList)).2 ("КАУТ-001410".toList) (by decide)

/-- C7 counterexample: with no date pattern, an order number present and a
comma present, the remainder 1-23456 consists entirely of digits and
punctuation (a hyphen), yet extract_address returns it instead of null:
the rejection test only strips spaces, colons and periods before isdigit,
so the hyphen makes the test fail. -/
theorem extract_address_digit_punct_counterexample :
    p1Search ("AB-12345, 1-23456".toList) = none ∧
    p2Search ("AB-12345, 1-23456".toList) = none ∧
    (searchNum false ("AB-12345, 1-23456".toList)).isSome = true ∧
    2 ≤ (splitComma ("AB-12345, 1-23456".toList)).length ∧
    extract_address ("AB-12345, 1-23456".toList) = some ("1-23456".toList) ∧
    ∀ c ∈ "1-23456".toList, isDigitCh c = true ∨ c = '-' := by
  refine ⟨by decide, by decide, by decide, by decide, by decide, by decide⟩

/-- C7 (amended): when the two date patterns do not match, the text contains
an order identifier and at least one comma, the fallback returns the trimmed
text after the first comma provided it is longer than 5 characters and does
not become a nonempty all-digit string once every space, colon and period is
removed; it returns null exactly when the remainder is too short or passes
that digits-only test (so remainders of digits mixed with other punctuation,
such as hyphens, are returned, and remainders with no digits at all are also
returned). -/
theorem extract_address_fallback_amended (t : Str)
    (h1 : p1Search t = none) (h2 : p2Search t = none)
    (h3 : (searchNum false t).isSome = true)
    (h4 : 2 ≤ (splitComma t).length) :
    (extract_address t = none ↔
      ((pyStrip (pyJoin [','] (splitComma t).tail)).length ≤ 5 ∨
        digitsOnlyStripped (pyStrip (pyJoin [','] (splitComma t).tail)) = true)) ∧
    ∀ a, extract_address t = some a →
      a = pyStrip (pyJoin [','] (splitComma t).tail) := by
  have hne : t.isEmpty = false := by
    rcases t with _ | ⟨c, r⟩
    · simp [searchNum] at h3
    · rfl
  have hext : extract_address t = addrFallback t := by
    unfold extract_address
    rw [hne]
    simp only [Bool.false_eq_true, if_false]
    rw [h1, h2]
    rfl
  rw [hext, addrFallback, if_pos h3, if_pos h4]
  by_cases hc : 5 < (pyStrip (pyJoin [','] (splitComma t).tail)).length ∧
      digitsOnlyStripped (pyStrip (pyJoin [','] (splitComma t).tail)) = false
  · rw [if_pos hc]
    constructor
    · constructor
      · intro h; cases h
      · intro h
        rcases h with h | h
        · omega
        · rw [hc.2] at h; cases h
    · intro a2 h
      injection h with h
      exact h.symm
  · rw [if_neg hc]
    constructor
    · constructor
      · intro _
        by_cases h5 : 5 < (pyStrip (pyJoin [','] (splitComma t).tail)).length
        · right
          by_cases hd : digitsOnlyStripped (pyStrip (pyJoin [','] (splitComma t).tail)) = true
          · exact hd
          · exact absurd ⟨h5, by simpa using hd⟩ hc
        · left; omega
      · intro _; rfl
    · intro a2 h; cases h

/-- Witness for C7 (amended) at a concrete row text. -/
theorem extract_address_fallback_amended_witness :
    (extract_address ("AB-12345, ул. Ленина, 7".toList) = none ↔
      ((pyStrip (pyJoin [','] (splitComma ("AB-12345, ул. Ленина, 7".toList)).tail)).length ≤ 5 ∨
        digitsOnlyStripped
          (pyStrip (pyJoin [','] (splitComma ("AB-12345, ул. Ленина, 7".toList)).tail)) = true)) ∧
    ∀ a, extract_address ("AB-12345, ул. Ленина, 7".toList) = some a →
      a = pyStrip (pyJoin [','] (splitComma ("AB-12345, ул. Ленина, 7".toList)).tail) :=
  extract_address_fallback_amended ("AB-12345, ул. Ленина, 7".toList)
    (by decide) (by decide) (by decide) (by decide)

theorem extract_order_number_some_ne_nil {t m : Str}
    (h : extract_order_number t = some m) : m ≠ [] := by
  obtain ⟨pre, post, _, hsm, _⟩ := extract_order_number_sound t m h
  exact specNumMatch_ne_nil hsm

theorem tryPattern_some_len {r : Option Str} {a : Str} (h : tryPattern r = some a) :
    5 < a.length := by
  unfold tryPattern at h
  rcases r with _ | g
  · cases h
  · dsimp only at h
    by_cases hl : 5 < (pyStrip g).length
    · rw [if_pos hl] at h
      injection h with h
      rw [← h]; exact hl
    · rw [if_neg hl] at h; cases h

theorem addrFallback_some_len {t a : Str} (h : addrFallback t = some a) :
    5 < a.length := by
  unfold addrFallback at h
  by_cases h3 : (searchNum false t).isSome = true
  · rw [if_pos h3] at h
    by_cases h4 : 2 ≤ (splitComma t).length
    · rw [if_pos h4] at h
      by_cases hc : 5 < (pyStrip (pyJoin [','] (splitComma t).tail)).length ∧
          digitsOnlyStripped (pyStrip (pyJoin [','] (splitComma t).tail)) = false
      · rw [if_pos hc] at h
        injection h with h
        rw [← h]; exact hc.1
      · rw [if_neg hc] at h; cases h
    · rw [if_neg h4] at h; cases h
  · rw [if_neg h3] at h; cases h

theorem extract_address_some_len {t a : Str} (h : extract_address t = some a) :
    5 < a.length := by
  unfold extract_address at h
  by_cases ht : t.isEmpty
  · rw [if_pos ht] at h; cases h
  · rw [if_neg ht] at h
    rcases hp1 : tryPattern (p1Search t) with _ | a1
    · rw [hp1] at h
      dsimp only at h
      rcases hp2 : tryPattern (p2Search t) with _ | a2
      · rw [hp2] at h
        dsimp only at h
        exact addrFallback_some_len h
      · rw [hp2] at h
        dsimp only at h
        injection h with h
        rw [← h]
        exact tryPattern_some_len hp2
    · rw [hp1] at h
      dsimp only at h
      injection h with h
      rw [← h]
      exact tryPattern_some_len hp1

theorem extract_address_some_ne_nil {t a : Str} (h : extract_address t = some a) :
    a ≠ [] := by
  have := extract_address_some_len h
  intro hnil
  rw [hnil] at this
  simp at this

/-- C5: work-type resolution (src/main.py lines 877-890) is the ordered
decision list: diagnostic when the diagnostic amount is positive, else
inspection when the inspection amount is positive, else installation when
the payout is present and above 5000, else other; in particular a row with
diagnostic amount 100 and payout 6000 always resolves to diagnostic. -/
theorem work_type_resolution_ordered (rid fid : Nat) (text_cell : Str)
    (diag_sum insp_sum : ℚ) (payout_val : Option ℚ) (worker_raw comment_raw : Option Str) :
    (0 < diag_sum →
      (processRow rid fid text_cell diag_sum insp_sum payout_val worker_raw comment_raw).work_type
        = "diagnostic".toList) ∧
    (diag_sum ≤ 0 → 0 < insp_sum →
      (processRow rid fid text_cell diag_sum insp_sum payout_val worker_raw comment_raw).work_type
        = "inspection".toList) ∧
    (diag_sum ≤ 0 → insp_sum ≤ 0 → ∀ p, payout_val = some p → 5000 < p →
      (processRow rid fid text_cell diag_sum insp_sum payout_val worker_raw comment_raw).work_type
        = "installation".toList) ∧
    (diag_sum ≤ 0 → insp_sum ≤ 0 → (∀ p, payout_val = some p → p ≤ 5000) →
      (processRow rid fid text_cell diag_sum insp_sum payout_val worker_raw comment_raw).work_type
        = "other".toList) ∧
    (∀ insp2 : ℚ,
      (processRow rid fid text_cell 100 insp2 (some 6000) worker_raw comment_raw).work_type
        = "diagnostic".toList) := by
  refine ⟨?_, ?_, ?_, ?_, ?_⟩
  · intro h
    simp only [processRow, if_pos h]
  · intro hd hi
    simp only [processRow, if_neg (not_lt.mpr hd), if_pos hi]
  · intro hd hi p hp h5
    subst hp
    simp only [processRow, if_neg (not_lt.mpr hd), if_neg (not_lt.mpr hi), if_pos h5]
  · intro hd hi hp
    rcases payout_val with _ | p
    · simp only [processRow, if_neg (not_lt.mpr hd), if_neg (not_lt.mpr hi)]
    · have := hp p rfl
      simp only [processRow, if_neg (not_lt.mpr hd), if_neg (not_lt.mpr hi),
        if_neg (not_lt.mpr this)]
  · intro insp2
    simp only [processRow, if_pos (by norm_num : (0:ℚ) < 100)]

/-- Witness for C5 at a concrete row. -/
theorem work_type_resolution_ordered_witness :
    (processRow 1 1 [] 100 0 (some 6000) none none).work_type = "diagnostic".toList :=
  (work_type_resolution_ordered 1 1 [] 100 0 (some 6000) none none).1 (by norm_num)

/-- C8: for every processed row, is_problematic = true and parsed_ok = false
exactly when the extracted order identifier or the extracted address is
null; when both are recovered the flags are false / true.  The record is
built unconditionally (processRow is a total function), so the row is
persisted in either case. -/
theorem problematic_flags_iff (rid fid : Nat) (text_cell : Str)
    (diag_sum insp_sum : ℚ) (payout_val : Option ℚ) (worker_raw comment_raw : Option Str) :
    (((processRow rid fid text_cell diag_sum insp_sum payout_val worker_raw
          comment_raw).is_problematic = true ∧
      (processRow rid fid text_cell diag_sum insp_sum payout_val worker_raw
          comment_raw).parsed_ok = false) ↔
      ((processRow rid fid text_cell diag_sum insp_sum payout_val worker_raw
          comment_raw).order_number = none ∨
       (processRow rid fid text_cell diag_sum insp_sum payout_val worker_raw
          comment_raw).address = none)) ∧
    ((processRow rid fid text_cell diag_sum insp_sum payout_val worker_raw
          comment_raw).order_number ≠ none →
     (processRow rid fid text_cell diag_sum insp_sum payout_val worker_raw
          comment_raw).address ≠ none →
     (processRow rid fid text_cell diag_sum insp_sum payout_val worker_raw
          comment_raw).is_problematic = false ∧
     (processRow rid fid text_cell diag_sum insp_sum payout_val worker_raw
          comment_raw).parsed_ok = true) := by
  have hop : (processRow rid fid text_cell diag_sum insp_sum payout_val worker_raw
      comment_raw).order_number = extract_order_number text_cell := rfl
  have hap : (processRow rid fid text_cell diag_sum insp_sum payout_val worker_raw
      comment_raw).address = extract_address text_cell := rfl
  have hip : (processRow rid fid text_cell diag_sum insp_sum payout_val worker_raw
      comment_raw).is_problematic =
      (!truthyS (extract_order_number text_cell) ||
        !truthyS (extract_address text_cell)) := rfl
  have hpk : (processRow rid fid text_cell diag_sum insp_sum payout_val worker_raw
      comment_raw).parsed_ok =
      !(!truthyS (extract_order_number text_cell) ||
        !truthyS (extract_address text_cell)) := rfl
  rw [hop, hap, hip, hpk]
  rcases ho : extract_order_number text_cell with _ | m
  · simp [truthyS]
  · have hm : m.isEmpty = false := by
      have := extract_order_number_some_ne_nil ho
      simpa [List.isEmpty_iff] using this
    rcases ha : extract_address text_cell with _ | a
    · simp [truthyS, hm]
    · have haa : a.isEmpty = false := by
        have := extract_address_some_ne_nil ha
        simpa [List.isEmpty_iff] using this
      simp [truthyS, hm, haa]

/-- Witness for C8 at a concrete row whose order number and address both
extract successfully. -/
theorem problematic_flags_iff_witness :
    (processRow 1 1
        ("Заказ клиента КАУТ-001410 от 02.10.2025 17:13:20, МО, г. Дмитров".toList)
        0 0 (some 6000) none none).is_problematic = false ∧
    (processRow 1 1
        ("Заказ клиента КАУТ-001410 от 02.10.2025 17:13:20, МО, г. Дмитров".toList)
        0 0 (some 6000) none none).parsed_ok = true :=
  (problematic_flags_iff 1 1
      ("Заказ клиента КАУТ-001410 от 02.10.2025 17:13:20, МО, г. Дмитров".toList)
      0 0 (some 6000) none none).2 (by decide) (by decide)

theorem groupByKeyF_sound {α κ : Type} [DecidableEq κ] (f : α → κ) :
    ∀ (n : Nat) (l : List α), l.length ≤ n → ∀ (k : κ) (ms : List α),
    (k, ms) ∈ groupByKeyF f n l →
    ms = l.filter (fun b => decide (f b = k)) ∧ ms ≠ [] := by
  intro n
  induction n with
  | zero =>
    intro l hl k ms hm
    rcases l with _ | ⟨a, rest⟩
    · cases hm
    · simp at hl
  | succ n ih =>
    intro l hl k ms hm
    rcases l with _ | ⟨a, rest⟩
    · cases hm
    · rcases List.mem_cons.mp hm with hm | hm
      · injection hm with h1 h2
        subst h1
        subst h2
        refine ⟨by simp [List.filter_cons], by simp⟩
      · have hrest : (rest.filter (fun b => !decide (f b = f a))).length ≤ n := by
          have h1 := List.length_filter_le (fun b => !decide (f b = f a)) rest
          have h2 : rest.length + 1 ≤ n + 1 := by simpa using hl
          omega
        obtain ⟨hms, hne⟩ := ih _ hrest k ms hm
        have hka : ¬ k = f a := by
          intro hk
          rcases ms with _ | ⟨x, ms'⟩
          · exact hne rfl
          · have hx : x ∈ x :: ms' := by simp
            rw [hms] at hx
            have h1 := List.mem_filter.mp hx
            have h2 := List.mem_filter.mp h1.1
            have hfx : f x = k := by simpa using h1.2
            have hnfx : ¬ f x = f a := by simpa using h2.2
            exact hnfx (hfx.trans hk)
        have hak : ¬ (decide (f a = k) = true) := by
          simp only [decide_eq_true_eq]
          intro h; exact hka h.symm
        refine ⟨?_, hne⟩
        have hhead : List.filter (fun b => decide (f b = k)) (a :: rest) =
            List.filter (fun b => decide (f b = k)) rest := by
          simp only [List.filter_cons]
          rw [if_neg hak]
        rw [hms, hhead, List.filter_filter]
        apply List.filter_congr
        intro b _
        by_cases hb : f b = k
        · have hbna : ¬ f b = f a := by rw [hb]; exact fun h => hka h
          simp [hb, hbna, hka]
        · simp [hb]

theorem groupByKeyF_complete {α κ : Type} [DecidableEq κ] (f : α → κ) :
    ∀ (n : Nat) (l : List α), l.length ≤ n → ∀ (k : κ),
    l.filter (fun b => decide (f b = k)) ≠ [] →
    (k, l.filter (fun b => decide (f b = k))) ∈ groupByKeyF f n l := by
  intro n
  induction n with
  | zero =>
    intro l hl k hne
    rcases l with _ | ⟨a, rest⟩
    · simp at hne
    · simp at hl
  | succ n ih =>
    intro l hl k hne
    rcases l with _ | ⟨a, rest⟩
    · simp at hne
    · by_cases hk : k = f a
      · subst hk
        have hfc : (a :: rest).filter (fun b => decide (f b = f a)) =
            a :: rest.filter (fun b => decide (f b = f a)) := by
          simp [List.filter_cons]
        rw [hfc]
        exact List.mem_cons_self _ _
      · have hak : ¬ (decide (f a = k) = true) := by
          simp only [decide_eq_true_eq]
          intro h; exact hk h.symm
        have hfc : (a :: rest).filter (fun b => decide (f b = k)) =
            rest.filter (fun b => decide (f b = k)) := by
          simp only [List.filter_cons]
          rw [if_neg hak]
        have hff : (rest.filter (fun b => !decide (f b = f a))).filter
            (fun b => decide (f b = k)) = rest.filter (fun b => decide (f b = k)) := by
          rw [List.filter_filter]
          apply List.filter_congr
          intro b _
          by_cases hb : f b = k
          · have hbna : ¬ f b = f a := by rw [hb]; exact fun h => hk h
            simp [hb, hbna, hk]
          · simp [hb]
        have hrest : (rest.filter (fun b => !decide (f b = f a))).length ≤ n := by
          have h1 := List.length_filter_le (fun b => !decide (f b = f a)) rest
          have h2 : rest.length + 1 ≤ n + 1 := by simpa using hl
          omega
        have hne2 : (rest.filter (fun b => !decide (f b = f a))).filter
            (fun b => decide (f b = k)) ≠ [] := by
          rw [hff, ← hfc]; exact hne
        have := ih _ hrest k hne2
        rw [hff, ← hfc] at this
        exact List.mem_cons_of_mem _ this

theorem groupByKeyF_keys {α κ : Type} [DecidableEq κ] (f : α → κ) :
    ∀ (n : Nat) (l : List α) (k : κ),
    k ∈ (groupByKeyF f n l).map Prod.fst → ∃ b ∈ l, f b = k := by
  intro n
  induction n with
  | zero =>
    intro l k hk
    rcases l with _ | ⟨a, rest⟩ <;> simp [groupByKeyF] at hk
  | succ n ih =>
    intro l k hk
    rcases l with _ | ⟨a, rest⟩
    · simp [groupByKeyF] at hk
    · simp only [groupByKeyF, List.map_cons, List.mem_cons] at hk
      rcases hk with hk | hk
      · exact ⟨a, by simp, hk.symm⟩
      · obtain ⟨b, hb, hfb⟩ := ih _ k hk
        have := List.mem_filter.mp hb
        exact ⟨b, List.mem_cons_of_mem _ this.1, hfb⟩

theorem groupByKeyF_keys_nodup {α κ : Type} [DecidableEq κ] (f : α → κ) :
    ∀ (n : Nat) (l : List α), ((groupByKeyF f n l).map Prod.fst).Nodup := by
  intro n
  induction n with
  | zero =>
    intro l
    rcases l with _ | ⟨a, rest⟩ <;> simp [groupByKeyF]
  | succ n ih =>
    intro l
    rcases l with _ | ⟨a, rest⟩
    · simp [groupByKeyF]
    · simp only [groupByKeyF, List.map_cons]
      refine List.Nodup.cons ?_ (ih _)
      intro hmem
      obtain ⟨b, hb, hfb⟩ := groupByKeyF_keys f n _ (f a) hmem
      have := List.mem_filter.mp hb
      have h2 : ¬ f b = f a := by simpa using this.2
      exact h2 hfb

theorem groupByKey_sound {α κ : Type} [DecidableEq κ] (f : α → κ) {l : List α}
    {k : κ} {ms : List α} (hm : (k, ms) ∈ groupByKey f l) :
    ms = l.filter (fun b => decide (f b = k)) ∧ ms ≠ [] :=
  groupByKeyF_sound f l.length l le_rfl k ms hm

theorem groupByKey_complete {α κ : Type} [DecidableEq κ] (f : α → κ) {l : List α}
    {k : κ} (hne : l.filter (fun b => decide (f b = k)) ≠ []) :
    (k, l.filter (fun b => decide (f b = k))) ∈ groupByKey f l :=
  groupByKeyF_complete f l.length l le_rfl k hne

theorem groupByKey_keys_nodup {α κ : Type} [DecidableEq κ] (f : α → κ) (l : List α) :
    ((groupByKey f l).map Prod.fst).Nodup :=
  groupByKeyF_keys_nodup f l.length l

theorem headI_map_of_ne_nil {α β : Type} [Inhabited α] [Inhabited β] (f : α → β) :
    ∀ (l : List α), l ≠ [] → (l.map f).headI = f l.headI := by
  intro l h
  cases l with
  | nil => exact absurd rfl h
  | cons a t => rfl

theorem headI_mem_of_ne_nil {α : Type} [Inhabited α] :
    ∀ (l : List α), l ≠ [] → l.headI ∈ l := by
  intro l h
  cases l with
  | nil => exact absurd rfl h
  | cons a t => simp

theorem mem_subOf {orders : List OrderRec} {k : Str × Str} {wt : Str} {r : OrderRec}
    (h : r ∈ subOf orders k wt) :
    r ∈ orders ∧ dupEligible r = true ∧ keyOf r = k ∧ r.work_type = wt := by
  unfold subOf clusterOf at h
  have h1 := List.mem_filter.mp h
  have h2 := List.mem_filter.mp h1.1
  have h3 := List.mem_filter.mp h2.1
  exact ⟨h3.1, h3.2, by simpa using h2.2, by simpa using h1.2⟩

theorem hardDuplicates_mem (orders : List OrderRec) (e : HardDup) :
    e ∈ hardDuplicates orders ↔
    ∃ k wt, 2 ≤ (subOf orders k wt).length ∧ e = mkHardDup orders k wt := by
  constructor
  · intro he
    unfold hardDuplicates at he
    obtain ⟨kc, hkc, hbody⟩ := List.mem_flatMap.mp he
    obtain ⟨k, ms⟩ := kc
    obtain ⟨hms, hmsne⟩ := groupByKey_sound keyOf hkc
    by_cases hlen : ms.length < 2
    · rw [if_pos hlen] at hbody
      simp at hbody
    · rw [if_neg hlen] at hbody
      obtain ⟨tg, htg, hemit⟩ := List.mem_filterMap.mp hbody
      obtain ⟨wt, sub⟩ := tg
      obtain ⟨hsub, hsubne⟩ := groupByKey_sound (fun r : OrderRec => r.work_type) htg
      by_cases h2 : 2 ≤ sub.length
      · rw [if_pos h2] at hemit
        have he2 := Option.some.inj hemit
        have hclust : clusterOf orders k = ms := by
          unfold clusterOf
          exact hms.symm
        have hsubeq : subOf orders k wt = sub := by
          unfold subOf
          rw [hclust, hsub]
        refine ⟨k, wt, by rw [hsubeq]; exact h2, ?_⟩
        rw [← he2]
        unfold mkHardDup
        rw [hclust, hsubeq]
      · rw [if_neg h2] at hemit
        cases hemit
  · rintro ⟨k, wt, hq, rfl⟩
    unfold hardDuplicates
    apply List.mem_flatMap.mpr
    have hsublen : (subOf orders k wt).length ≤ (clusterOf orders k).length := by
      unfold subOf
      exact List.length_filter_le _ _
    have hclne : clusterOf orders k ≠ [] := by
      intro h0
      have hz : (subOf orders k wt).length = 0 := by
        rw [h0] at hsublen
        simpa using hsublen
      omega
    have hsubne : subOf orders k wt ≠ [] := by
      intro h0
      rw [h0] at hq
      simp at hq
    refine ⟨(k, clusterOf orders k), ?_, ?_⟩
    · exact groupByKey_complete keyOf hclne
    · have hcond : ¬ ((k, clusterOf orders k).2.length < 2) := by
        have hsnd : (k, clusterOf orders k).2 = clusterOf orders k := rfl
        rw [hsnd]
        omega
      rw [if_neg hcond]
      apply List.mem_filterMap.mpr
      refine ⟨(wt, subOf orders k wt), ?_, ?_⟩
      · have hsubform : (clusterOf orders k).filter
            (fun b => decide (b.work_type = wt)) ≠ [] := hsubne
        exact groupByKey_complete (fun r : OrderRec => r.work_type) hsubform
      · rw [if_pos hq]
        rfl

theorem hdKeyOf_mkHardDup (orders : List OrderRec) (k : Str × Str) (wt : Str)
    (hq : subOf orders k wt ≠ []) :
    hdKeyOf (mkHardDup orders k wt) = (k, wt) := by
  have hhead : ((subOf orders k wt).map row_short).headI =
      row_short (subOf orders k wt).headI := headI_map_of_ne_nil _ _ hq
  have hmemb := headI_mem_of_ne_nil _ hq
  obtain ⟨_, _, hkey, hwt⟩ := mem_subOf hmemb
  unfold hdKeyOf mkHardDup
  dsimp only
  rw [hhead]
  have haddr : (row_short (subOf orders k wt).headI).address =
      (subOf orders k wt).headI.address := rfl
  rw [haddr]
  have h2 : normalize_text ((subOf orders k wt).headI.address.getD []) = k.2 := by
    have := congrArg Prod.snd hkey
    simpa [keyOf] using this
  rw [h2]

theorem mkHardDup_inj (orders : List OrderRec) (k k' : Str × Str) (wt wt' : Str)
    (h1 : subOf orders k wt ≠ []) (h2 : subOf orders k' wt' ≠ [])
    (heq : mkHardDup orders k wt = mkHardDup orders k' wt') : k = k' ∧ wt = wt' := by
  have h := congrArg hdKeyOf heq
  rw [hdKeyOf_mkHardDup orders k wt h1, hdKeyOf_mkHardDup orders k' wt' h2] at h
  exact ⟨congrArg Prod.fst h, congrArg Prod.snd h⟩

theorem nodup_filterMap_map {α β κ : Type} :
    ∀ (L : List α) (emit : α → Option β) (g : β → κ) (key : α → κ),
    (L.map key).Nodup → (∀ a ∈ L, ∀ b, emit a = some b → g b = key a) →
    ((L.filterMap emit).map g).Nodup := by
  intro L
  induction L with
  | nil => intro emit g key _ _; simp
  | cons a L' ih =>
    intro emit g key hk h
    rw [List.filterMap_cons]
    rcases hemit : emit a with _ | b
    · exact ih emit g key (by simpa using hk.of_cons)
        (fun a' ha' b hb => h a' (List.mem_cons_of_mem _ ha') b hb)
    · simp only [List.map_cons]
      refine List.Nodup.cons ?_ (ih emit g key (by simpa using hk.of_cons)
        (fun a' ha' b' hb' => h a' (List.mem_cons_of_mem _ ha') b' hb'))
      intro hmem
      obtain ⟨b', hb', hgb⟩ := List.mem_map.mp hmem
      obtain ⟨a', ha', hea'⟩ := List.mem_filterMap.mp hb'
      have hg1 : g b = key a := h a (by simp) b hemit
      have hg2 : g b' = key a' := h a' (List.mem_cons_of_mem _ ha') b' hea'
      have hkk : key a = key a' := by rw [← hg1, ← hg2, hgb]
      have hmem2 : key a ∈ L'.map key := by
        rw [hkk]
        exact List.mem_map.mpr ⟨a', ha', rfl⟩
      have hk' : key a ∉ List.map key L' := by
        have h0 := hk
        rw [List.map_cons, List.nodup_cons] at h0
        exact h0.1
      exact hk' (by simpa using hmem2)

theorem nodup_flatMap_of_key {α β κ1 κ2 : Type} :
    ∀ (L : List α) (body : α → List β) (g : β → κ1 × κ2) (key : α → κ1),
    (L.map key).Nodup →
    (∀ a ∈ L, ((body a).map g).Nodup) →
    (∀ a ∈ L, ∀ b ∈ body a, (g b).1 = key a) →
    ((L.flatMap body).map g).Nodup := by
  intro L
  induction L with
  | nil => intro body g key _ _ _; simp
  | cons a L' ih =>
    intro body g key hk hbody hfst
    rw [List.flatMap_cons, List.map_append]
    apply List.Nodup.append
    · exact hbody a (by simp)
    · exact ih body g key (by simpa using hk.of_cons)
        (fun a' ha' => hbody a' (List.mem_cons_of_mem _ ha'))
        (fun a' ha' b hb => hfst a' (List.mem_cons_of_mem _ ha') b hb)
    · intro x hx1 hx2
      obtain ⟨b, hb, hgb⟩ := List.mem_map.mp hx1
      obtain ⟨b', hb', hgb'⟩ := List.mem_map.mp hx2
      obtain ⟨a', ha', hba'⟩ := List.mem_flatMap.mp hb'
      have h1 : (g b).1 = key a := hfst a (by simp) b hb
      have h2 : (g b').1 = key a' := hfst a' (List.mem_cons_of_mem _ ha') b' hba'
      have hkk : key a = key a' := by
        rw [← h1, ← h2, hgb, ← hgb']
      have hk' : key a ∉ List.map key L' := by
        have h0 := hk
        rw [List.map_cons, List.nodup_cons] at h0
        exact h0.1
      apply hk'
      rw [hkk]
      exact List.mem_map.mpr ⟨a', ha', rfl⟩

theorem hd_emit_hdKey (orders : List OrderRec) {k : Str × Str} {ms : List OrderRec}
    (hkc : (k, ms) ∈ groupByKey keyOf (orders.filter dupEligible))
    {wt : Str} {sub : List OrderRec}
    (htg : (wt, sub) ∈ groupByKey (fun r : OrderRec => r.work_type) ms)
    (hlen : 2 ≤ sub.length) :
    hdKeyOf { order_number := k.1, address := ms.headI.address,
              work_type := wt, rows := sub.map row_short } = (k, wt) := by
  obtain ⟨hms, _⟩ := groupByKey_sound keyOf hkc
  obtain ⟨hsub, hsubne⟩ := groupByKey_sound (fun r : OrderRec => r.work_type) htg
  have hne : sub ≠ [] := by
    intro h0; rw [h0] at hlen; simp at hlen
  have hhead : (sub.map row_short).headI = row_short sub.headI := headI_map_of_ne_nil _ _ hne
  have hmemb : sub.headI ∈ sub := headI_mem_of_ne_nil _ hne
  have hmem2 : sub.headI ∈ ms := by
    have h0 : sub.headI ∈ ms.filter (fun b => decide (b.work_type = wt)) := by
      rw [← hsub]; exact hmemb
    exact (List.mem_filter.mp h0).1
  have hkey : keyOf sub.headI = k := by
    rw [hms] at hmem2
    have := (List.mem_filter.mp hmem2).2
    simpa using this
  unfold hdKeyOf
  dsimp only
  rw [hhead]
  have haddr : (row_short sub.headI).address = sub.headI.address := rfl
  rw [haddr]
  have h2 : normalize_text (sub.headI.address.getD []) = k.2 := by
    have := congrArg Prod.snd hkey
    simpa [keyOf] using this
  rw [h2]

theorem hardDuplicates_map_nodup (orders : List OrderRec) :
    ((hardDuplicates orders).map hdKeyOf).Nodup := by
  unfold hardDuplicates
  apply nodup_flatMap_of_key _ _ hdKeyOf Prod.fst
  · exact groupByKey_keys_nodup keyOf _
  · rintro ⟨k, ms⟩ hkc
    by_cases hlen : ms.length < 2
    · dsimp only
      rw [if_pos hlen]
      simp
    · dsimp only
      rw [if_neg hlen]
      apply nodup_filterMap_map _ _ hdKeyOf (fun tg => (k, tg.1))
      · rw [show (groupByKey (fun r : OrderRec => r.work_type) ms).map (fun tg => (k, tg.1)) =
            ((groupByKey (fun r : OrderRec => r.work_type) ms).map Prod.fst).map
              (fun w => (k, w)) from by rw [List.map_map]; rfl]
        exact List.Nodup.map (fun w1 w2 hw => congrArg Prod.snd hw)
          (groupByKey_keys_nodup (fun r : OrderRec => r.work_type) ms)
      · rintro ⟨wt, sub⟩ htg e hemit
        dsimp only at hemit
        by_cases h2 : 2 ≤ sub.length
        · rw [if_pos h2] at hemit
          injection hemit with hb
          rw [← hb]
          exact hd_emit_hdKey orders hkc htg h2
        · rw [if_neg h2] at hemit
          cases hemit
  · rintro ⟨k, ms⟩ hkc e he
    dsimp only at he
    by_cases hlen : ms.length < 2
    · rw [if_pos hlen] at he
      simp at he
    · rw [if_neg hlen] at he
      obtain ⟨tg, htg, hemit⟩ := List.mem_filterMap.mp he
      obtain ⟨wt, sub⟩ := tg
      by_cases h2 : 2 ≤ sub.length
      · rw [if_pos h2] at hemit
        injection hemit with hb
        rw [← hb]
        rw [hd_emit_hdKey orders hkc htg h2]
      · rw [if_neg h2] at hemit
        cases hemit

theorem subOf_ne_nil_of_two {orders : List OrderRec} {k : Str × Str} {wt : Str}
    (hq : 2 ≤ (subOf orders k wt).length) : subOf orders k wt ≠ [] := by
  intro h0
  rw [h0] at hq
  simp at hq

theorem hardDuplicates_toFinset_eq (orders : List OrderRec) :
    ((hardDuplicates orders).map hdKeyOf).toFinset = hardQualPairs orders := by
  apply Finset.ext
  intro p
  rw [List.mem_toFinset]
  constructor
  · intro hp
    obtain ⟨e, he, hke⟩ := List.mem_map.mp hp
    obtain ⟨k, wt, hq, rfl⟩ := (hardDuplicates_mem orders e).mp he
    have hne := subOf_ne_nil_of_two hq
    rw [hdKeyOf_mkHardDup orders k wt hne] at hke
    rw [← hke]
    unfold hardQualPairs
    apply Finset.mem_filter.mpr
    constructor
    · rw [List.mem_toFinset]
      have hmemb := headI_mem_of_ne_nil _ hne
      obtain ⟨hin, helig, hkey, hwt⟩ := mem_subOf hmemb
      apply List.mem_map.mpr
      refine ⟨(subOf orders k wt).headI, ?_, ?_⟩
      · exact List.mem_filter.mpr ⟨hin, helig⟩
      · unfold pairKeyOf
        rw [hkey, hwt]
    · exact hq
  · intro hp
    unfold hardQualPairs at hp
    have hp2 := Finset.mem_filter.mp hp
    obtain ⟨k, wt⟩ := p
    have hq : 2 ≤ (subOf orders k wt).length := hp2.2
    have hne := subOf_ne_nil_of_two hq
    apply List.mem_map.mpr
    refine ⟨mkHardDup orders k wt, ?_, hdKeyOf_mkHardDup orders k wt hne⟩
    exact (hardDuplicates_mem orders _).mpr ⟨k, wt, hq, rfl⟩

/-- C4: records with a non-null order number and address are clustered by
(order number trimmed and upper-cased, normalized address); every work-type
sub-group of size at least 2 of a cluster is reported as exactly one hard
duplicate carrying the shared upper-cased order id, the representative
(first) cluster member address, the work type and the full sub-group member
list; and hard_duplicates_count is the number of qualifying
(cluster key, work type) pairs. -/
theorem hard_duplicates_characterization (orders : List OrderRec) (k : Str × Str) (wt : Str) :
    (2 ≤ (subOf orders k wt).length →
      (hardDuplicates orders).count (mkHardDup orders k wt) = 1) ∧
    (analyze_duplicates_for_file orders none).hard_duplicates_count =
      (hardQualPairs orders).card := by
  constructor
  · intro hq
    have hmem : mkHardDup orders k wt ∈ hardDuplicates orders :=
      (hardDuplicates_mem orders _).mpr ⟨k, wt, hq, rfl⟩
    have hnodup : (hardDuplicates orders).Nodup :=
      (hardDuplicates_map_nodup orders).of_map
    exact List.count_eq_one_of_mem hnodup hmem
  · have h1 : (analyze_duplicates_for_file orders none).hard_duplicates_count =
        (hardDuplicates orders).length := rfl
    have h2 : (hardDuplicates orders).length =
        ((hardDuplicates orders).map hdKeyOf).length := (List.length_map _ _).symm
    have h3 : ((hardDuplicates orders).map hdKeyOf).toFinset.card =
        ((hardDuplicates orders).map hdKeyOf).length :=
      List.toFinset_card_of_nodup (hardDuplicates_map_nodup orders)
    rw [h1, h2, ← h3, hardDuplicates_toFinset_eq]

/-- Witness for C4: the two demo records form one hard-duplicate report. -/
theorem hard_duplicates_characterization_witness :
    (hardDuplicates [c4DemoRec1, c4DemoRec2]).count
      (mkHardDup [c4DemoRec1, c4DemoRec2]
        ("KAUT-001410".toList, normalize_text ("МО, г. Дмитров".toList))
        ("installation".toList)) = 1 :=
  (hard_duplicates_characterization [c4DemoRec1, c4DemoRec2]
      ("KAUT-001410".toList, normalize_text ("МО, г. Дмитров".toList))
      ("installation".toList)).1 (by decide)

theorem comboClusters_mem (orders : List OrderRec) (c : ComboCluster) :
    c ∈ comboClusters orders ↔
    ∃ na, 2 ≤ (comboClusterOf orders na).length ∧
      ¬((onsOf (comboClusterOf orders na)).card = 1 ∧
        (wtsOf (comboClusterOf orders na)).card = 1 ∧
        2 ≤ (comboClusterOf orders na).length) ∧
      c = mkCombo (comboClusterOf orders na) := by
  constructor
  · intro hc
    unfold comboClusters at hc
    obtain ⟨g, hg, hemit⟩ := List.mem_filterMap.mp hc
    obtain ⟨na, rows⟩ := g
    obtain ⟨hrows, hrowsne⟩ := groupByKey_sound normAddrOf hg
    have hcl : comboClusterOf orders na = rows := by
      unfold comboClusterOf
      exact hrows.symm
    dsimp only at hemit
    by_cases hlen : rows.length < 2
    · rw [if_pos hlen] at hemit
      cases hemit
    · rw [if_neg hlen] at hemit
      by_cases hhard : (onsOf rows).card = 1 ∧ (wtsOf rows).card = 1 ∧ 2 ≤ rows.length
      · rw [if_pos hhard] at hemit
        cases hemit
      · rw [if_neg hhard] at hemit
        refine ⟨na, by rw [hcl]; omega, by rw [hcl]; exact hhard, ?_⟩
        rw [hcl, ← Option.some.inj hemit]
  · rintro ⟨na, hlen, hhard, rfl⟩
    unfold comboClusters
    apply List.mem_filterMap.mpr
    have hclne : comboClusterOf orders na ≠ [] := by
      intro h0
      rw [h0] at hlen
      simp at hlen
    refine ⟨(na, comboClusterOf orders na), ?_, ?_⟩
    · exact groupByKey_complete normAddrOf hclne
    · dsimp only
      rw [if_neg (by omega), if_neg hhard]

theorem comboKeyOf_mkCombo (orders : List OrderRec) (na : Str)
    (hne : comboClusterOf orders na ≠ []) :
    comboKeyOf (mkCombo (comboClusterOf orders na)) = na := by
  have hhead : ((comboClusterOf orders na).map row_short).headI =
      row_short (comboClusterOf orders na).headI := headI_map_of_ne_nil _ _ hne
  have hmemb := headI_mem_of_ne_nil _ hne
  have hna : normAddrOf (comboClusterOf orders na).headI = na := by
    have h0 : (comboClusterOf orders na).headI ∈
        (orders.filter comboEligible).filter (fun r => decide (normAddrOf r = na)) := hmemb
    have := (List.mem_filter.mp h0).2
    simpa using this
  unfold comboKeyOf mkCombo
  dsimp only
  rw [hhead]
  have haddr : (row_short (comboClusterOf orders na).headI).address =
      (comboClusterOf orders na).headI.address := rfl
  rw [haddr]
  exact hna

theorem comboClusters_map_nodup (orders : List OrderRec) :
    ((comboClusters orders).map comboKeyOf).Nodup := by
  unfold comboClusters
  apply nodup_filterMap_map _ _ comboKeyOf Prod.fst
  · exact groupByKey_keys_nodup normAddrOf _
  · rintro ⟨na, rows⟩ hg c hemit
    obtain ⟨hrows, hrowsne⟩ := groupByKey_sound normAddrOf hg
    have hcl : comboClusterOf orders na = rows := by
      unfold comboClusterOf
      exact hrows.symm
    dsimp only at hemit
    by_cases hlen : rows.length < 2
    · rw [if_pos hlen] at hemit
      cases hemit
    · rw [if_neg hlen] at hemit
      by_cases hhard : (onsOf rows).card = 1 ∧ (wtsOf rows).card = 1 ∧ 2 ≤ rows.length
      · rw [if_pos hhard] at hemit
        cases hemit
      · rw [if_neg hhard] at hemit
        rw [← Option.some.inj hemit, ← hcl]
        exact comboKeyOf_mkCombo orders na (by rw [hcl]; exact hrowsne)

theorem groupByKey_pair_same {α κ : Type} [DecidableEq κ] (f : α → κ) (a b : α)
    (h : f b = f a) : groupByKey f [a, b] = [(f a, [a, b])] := by
  simp [groupByKey, groupByKeyF, h]

/-- C3 counterexample: a combo cluster is reported for two records that
contain no diagnostic or inspection member together with no installation
member (both are work type other, sharing one address under different
order numbers), so reported-as-combo does not imply the claimed mix. -/
theorem combo_without_installation_counterexample :
    (analyze_duplicates_for_file [c3OtherRec1, c3OtherRec2] none).combo_clusters_count = 1 ∧
    ([c3OtherRec1, c3OtherRec2].all
      (fun r => decide (r.work_type = "other".toList))) = true := by
  exact ⟨by decide, by decide⟩

/-- C3 (amended): the combo pass clusters by normalized address alone
(records whose normalized address is longer than 5 characters); a cluster
of at least 2 members is reported as exactly one combo cluster if and only
if it is NOT a single-order single-work-type group (its distinct truthy
order numbers and its distinct work types are not both exactly one).  In
particular one diagnostic record and one installation record sharing order
id and a long-enough address still yield a combo cluster and no hard
duplicate. -/
theorem combo_cluster_amended :
    (∀ (orders : List OrderRec) (na : Str),
      2 ≤ (comboClusterOf orders na).length →
      (((comboClusters orders).count (mkCombo (comboClusterOf orders na)) = 1) ↔
        ¬((onsOf (comboClusterOf orders na)).card = 1 ∧
          (wtsOf (comboClusterOf orders na)).card = 1))) ∧
    (∀ r1 r2 : OrderRec, r1.work_type = "diagnostic".toList →
      r2.work_type = "installation".toList →
      dupEligible r1 = true → dupEligible r2 = true →
      keyOf r1 = keyOf r2 → 5 < (normAddrOf r1).length →
      (comboClusters [r1, r2]).count
        (mkCombo (comboClusterOf [r1, r2] (normAddrOf r1))) = 1 ∧
      hardDuplicates [r1, r2] = []) := by
  have part1 : ∀ (orders : List OrderRec) (na : Str),
      2 ≤ (comboClusterOf orders na).length →
      (((comboClusters orders).count (mkCombo (comboClusterOf orders na)) = 1) ↔
        ¬((onsOf (comboClusterOf orders na)).card = 1 ∧
          (wtsOf (comboClusterOf orders na)).card = 1)) := by
    intro orders na hlen
    have hne : comboClusterOf orders na ≠ [] := by
      intro h0; rw [h0] at hlen; simp at hlen
    constructor
    · intro hcount hhard
      have hmem : mkCombo (comboClusterOf orders na) ∈ comboClusters orders := by
        by_contra hnm
        rw [List.count_eq_zero_of_not_mem hnm] at hcount
        cases hcount
      obtain ⟨na', hlen', hhard', hceq⟩ := (comboClusters_mem orders _).mp hmem
      have hne' : comboClusterOf orders na' ≠ [] := by
        intro h0; rw [h0] at hlen'; simp at hlen'
      have hna : na' = na := by
        have h1 := comboKeyOf_mkCombo orders na hne
        have h2 := comboKeyOf_mkCombo orders na' hne'
        rw [← hceq, h1] at h2
        exact h2.symm
      subst hna
      exact hhard' ⟨hhard.1, hhard.2, hlen'⟩
    · intro hhard
      have hmem : mkCombo (comboClusterOf orders na) ∈ comboClusters orders :=
        (comboClusters_mem orders _).mpr
          ⟨na, hlen, fun h => hhard ⟨h.1, h.2.1⟩, rfl⟩
      exact List.count_eq_one_of_mem ((comboClusters_map_nodup orders).of_map) hmem
  refine ⟨part1, ?_⟩
  intro r1 r2 hw1 hw2 he1 he2 hkey hna
  have hnaeq : normAddrOf r2 = normAddrOf r1 := by
    have := congrArg Prod.snd hkey
    unfold keyOf at this
    dsimp only at this
    exact this.symm
  have htr1 : truthyS r1.address = true := by
    unfold dupEligible at he1
    rw [Bool.and_eq_true] at he1
    exact he1.2
  have htr2 : truthyS r2.address = true := by
    unfold dupEligible at he2
    rw [Bool.and_eq_true] at he2
    exact he2.2
  have hce1 : comboEligible r1 = true := by
    unfold comboEligible
    rw [Bool.and_eq_true]
    exact ⟨htr1, by simpa using hna⟩
  have hce2 : comboEligible r2 = true := by
    unfold comboEligible
    rw [Bool.and_eq_true]
    refine ⟨htr2, ?_⟩
    rw [hnaeq]
    simpa using hna
  have hcl : comboClusterOf [r1, r2] (normAddrOf r1) = [r1, r2] := by
    unfold comboClusterOf
    rw [List.filter_cons, List.filter_cons, List.filter_nil]
    rw [hce1, hce2]
    simp only [if_true]
    rw [List.filter_cons, List.filter_cons, List.filter_nil]
    simp [hnaeq]
  have hwts : (wtsOf [r1, r2]).card = 2 := by
    unfold wtsOf
    rw [List.map_cons, List.map_cons, List.map_nil, hw1, hw2]
    decide
  constructor
  · apply (part1 [r1, r2] (normAddrOf r1) (by rw [hcl]; simp)).mpr
    intro h
    rw [hcl] at h
    rw [hwts] at h
    cases h.2
  · rcases hhd : hardDuplicates [r1, r2] with _ | ⟨e, rest⟩
    · rfl
    · exfalso
      have hmem : e ∈ hardDuplicates [r1, r2] := by
        rw [hhd]; simp
      obtain ⟨k, wt, hq, _⟩ := (hardDuplicates_mem _ e).mp hmem
      have hsubl : List.Sublist (subOf [r1, r2] k wt) [r1, r2] := by
        unfold subOf clusterOf
        exact ((List.filter_sublist _).trans (List.filter_sublist _)).trans
          (List.filter_sublist _)
      have hle : (subOf [r1, r2] k wt).length ≤ 2 := by
        have := hsubl.length_le
        simpa using this
      have hlen2 : (subOf [r1, r2] k wt).length = 2 := by omega
      have hseq : subOf [r1, r2] k wt = [r1, r2] :=
        hsubl.eq_of_length (by simpa using hlen2)
      have hm1 : r1 ∈ subOf [r1, r2] k wt := by rw [hseq]; simp
      have hm2 : r2 ∈ subOf [r1, r2] k wt := by rw [hseq]; simp
      have hwt1 := (mem_subOf hm1).2.2.2
      have hwt2 := (mem_subOf hm2).2.2.2
      have : ("diagnostic".toList : Str) = "installation".toList := by
        rw [← hw1, ← hw2, hwt1, hwt2]
      exact absurd this (by decide)

/-- Witness for C3 (amended): the two demo records form exactly one combo
cluster. -/
theorem combo_cluster_amended_witness :
    (comboClusters [c3OtherRec1, c3OtherRec2]).count
      (mkCombo (comboClusterOf [c3OtherRec1, c3OtherRec2]
        (normAddrOf c3OtherRec1))) = 1 :=
  (combo_cluster_amended.1 [c3OtherRec1, c3OtherRec2] (normAddrOf c3OtherRec1)
      (by decide)).mpr (by decide)

/-- C10: the address-only (combo) pass only ever uses records whose address
is non-null, nonempty and normalizes to more than 5 characters; every
member of every reported combo cluster satisfies this, the whole pass is
unchanged when the excluded records are removed from the input, and the
exclusion can strike records whose stored address is longer than 5
characters, because normalization collapses whitespace. -/
theorem combo_short_address_exclusion (orders : List OrderRec) :
    (∀ c ∈ comboClusters orders, ∀ s ∈ c.rows,
      ∃ a : Str, s.address = some a ∧ a ≠ [] ∧ 5 < (normalize_text a).length) ∧
    comboClusters (orders.filter comboEligible) = comboClusters orders ∧
    (analyze_duplicates_for_file (orders.filter comboEligible) none).combo_clusters_count =
      (analyze_duplicates_for_file orders none).combo_clusters_count ∧
    (∃ raw : Str, 5 < raw.length ∧ (normalize_text raw).length ≤ 5) := by
  have hfilter : (orders.filter comboEligible).filter comboEligible =
      orders.filter comboEligible := by
    rw [List.filter_filter]
    apply List.filter_congr
    intro b _
    simp
  have heqpass : comboClusters (orders.filter comboEligible) = comboClusters orders := by
    unfold comboClusters
    rw [hfilter]
  refine ⟨?_, heqpass, ?_, ?_⟩
  · intro c hc s hs
    obtain ⟨na, hlen, _, rfl⟩ := (comboClusters_mem orders c).mp hc
    have hrows : (mkCombo (comboClusterOf orders na)).rows =
        (comboClusterOf orders na).map row_short := rfl
    rw [hrows] at hs
    obtain ⟨r, hr, hsr⟩ := List.mem_map.mp hs
    have hrmem : r ∈ (orders.filter comboEligible).filter
        (fun x => decide (normAddrOf x = na)) := hr
    have helig : comboEligible r = true :=
      (List.mem_filter.mp (List.mem_filter.mp hrmem).1).2
    unfold comboEligible at helig
    rw [Bool.and_eq_true] at helig
    rcases haddr : r.address with _ | a
    · rw [haddr] at helig
      simp [truthyS] at helig
    · refine ⟨a, ?_, ?_, ?_⟩
      · rw [← hsr]
        have : (row_short r).address = r.address := rfl
        rw [this, haddr]
      · have := helig.1
        rw [haddr] at this
        simpa [truthyS, List.isEmpty_iff] using this
      · have := helig.2
        rw [decide_eq_true_eq] at this
        unfold normAddrOf at this
        rw [haddr] at this
        simpa using this
  · have h1 : (analyze_duplicates_for_file (orders.filter comboEligible) none).combo_clusters_count
        = (comboClusters (orders.filter comboEligible)).length := rfl
    have h2 : (analyze_duplicates_for_file orders none).combo_clusters_count
        = (comboClusters orders).length := rfl
    rw [h1, h2, heqpass]
  · exact ⟨"ab    c".toList, by decide, by decide⟩

/-- Witness for C10 at a concrete combo cluster member. -/
theorem combo_short_address_exclusion_witness :
    ∃ a : Str, (row_short c10DemoRec1).address = some a ∧ a ≠ [] ∧
      5 < (normalize_text a).length :=
  (combo_short_address_exclusion [c10DemoRec1, c10DemoRec2]).1
    (mkCombo (comboClusterOf [c10DemoRec1, c10DemoRec2] (normAddrOf c10DemoRec1)))
    (by decide) (row_short c10DemoRec1) (by decide)

/-- C1: after every successful read, ingestion raises UnboundLocalError
(line 723 reads diagnostic_col before its assignment at line 737) instead
of completing, so the promised result keys (total_rows, saved_rows,
problematic_rows, file_id) are never produced; even with that fixed, line
938 reads the key clusters_with_multiple_count, which
analyze_duplicates_for_file does not return (see AnalysisResult). -/
theorem upload_always_raises_before_returning (freshId : Nat) (tbl : SheetTable) :
    (uploadFile freshId (.ok tbl)).2 =
      .raised "UnboundLocalError: local variable diagnostic_col referenced before assignment" ∧
    isSuccess (uploadFile freshId (.ok tbl)).2 = false :=
  ⟨rfl, rfl⟩

/-- C2 counterexample: a concrete ingestion whose tabular read succeeds
commits a file record and then fails, so a file record exists for an
ingestion that did not complete. -/
theorem upload_partial_file_record_counterexample :
    (uploadFile 1 (.ok ⟨"report.xlsx".toList, []⟩)).1.files =
      [⟨1, "report.xlsx".toList⟩] ∧
    isSuccess (uploadFile 1 (.ok ⟨"report.xlsx".toList, []⟩)).2 = false :=
  ⟨rfl, rfl⟩

/-- C2 (amended): on a fatal read error no state is left behind and no file
record is created; after a successful read, however, the file record is
created and committed BEFORE row processing, so an ingestion that fails
later leaves that file record (with no rows) behind; rows themselves are
only ever committed as a single unit after the whole loop (line 927, dead
code in the current source). -/
theorem upload_persistence_amended :
    (∀ (freshId : Nat) (e : Str),
      uploadFile freshId (.error e) = (⟨[], []⟩, .badRequest e)) ∧
    (∀ (freshId : Nat) (tbl : SheetTable),
      (uploadFile freshId (.ok tbl)).1.files = [⟨freshId, tbl.filename⟩] ∧
      (uploadFile freshId (.ok tbl)).1.rows = []) :=
  ⟨fun _ _ => rfl, fun _ _ => ⟨rfl, rfl⟩⟩
